import Mathlib

/-!
Verification development for the nachos-embeddings repository.

The development shallowly embeds the code of `src/vector-store.ts`,
`src/semantic-search.ts`, `src/semantic-search-enhanced.ts` and the text
utilities (`estimateTokens`, `chunkText`, `normalizeText`).

Modelling conventions:
* JavaScript numbers are modelled as exact numbers: vector components and
  similarity scores as real numbers (`ℝ`, with `Real.sqrt` and `Real.log`
  standing for `Math.sqrt` and `Math.log`), configuration scalars and
  timestamps as rationals (`ℚ`), counts as naturals (`ℕ`).
* A JavaScript `Map` is modelled as an insertion-ordered association list
  with unique keys; `set` overwrites in place, `delete` removes, matching
  `Map` iteration-order semantics.
* A function that can `throw` returns `Except`; an exception propagates and
  aborts the caller, leaving prior state untouched.
* The external embedder is a parameter `embed : String → List ℝ`.
* Asynchronous steps (`await`) in the enhanced layer are sequential in the
  source (each is awaited before the next), so they are modelled as
  sequential pure state transitions; the save side effect is modelled as a
  boolean "a save was triggered" output.
-/

/-! ## Text utilities (src: utils.ts) -/

/-- The whitespace characters recognised by the JavaScript regexp class
used in `utils.ts` (space, tab, line feed, carriage return, vertical tab,
form feed, no-break space). -/
def jsWhitespaceChars : List Char :=
  [' ', '\t', '\n', '\r', Char.ofNat 11, Char.ofNat 12, Char.ofNat 160]

/-- Whether a character is JavaScript whitespace. -/
def isJsWhitespace (c : Char) : Bool :=
  jsWhitespaceChars.contains c

/-- `text.toLowerCase()` (ASCII case mapping). -/
def toLowerString (s : String) : String :=
  ⟨s.data.map Char.toLower⟩

/-- `text.trim()`: drop whitespace from both ends. -/
def trimChars (l : List Char) : List Char :=
  ((l.dropWhile isJsWhitespace).reverse.dropWhile isJsWhitespace).reverse

/-- `text.replace(/\s+/g, ' ')`: replace every maximal whitespace run by a
single space.  Written with one-character lookahead so that the recursion
is structural: the characters of a run are dropped until its last one,
which is emitted as a single space. -/
def collapseWsChars : List Char → List Char
  | [] => []
  | [c] => if isJsWhitespace c then [' '] else [c]
  | c :: d :: rest =>
    if isJsWhitespace c then
      if isJsWhitespace d then collapseWsChars (d :: rest)
      else ' ' :: collapseWsChars (d :: rest)
    else c :: collapseWsChars (d :: rest)

/-- `normalizeText` from utils.ts:
`text.toLowerCase().trim().replace(/\s+/g, ' ')`. -/
def normalizeText (s : String) : String :=
  ⟨collapseWsChars (trimChars ((toLowerString s).data))⟩

/-- `estimateTokens` from utils.ts: `Math.ceil(text.length / 4)`. -/
def estimateTokens (s : String) : ℕ :=
  (s.length + 3) / 4

/-- Whether the last character accumulated so far (head of the reversed
accumulator) is one of `.`, `!`, `?` — the lookbehind of the sentence
splitting regexp. -/
def lastIsSentencePunct (acc : List Char) : Bool :=
  match acc with
  | [] => false
  | c :: _ => c = '.' ∨ c = '!' ∨ c = '?'

/-- Worker for `text.split(/(?<=[.!?])\s+/)`.  `acc` is the current part in
reverse; the boolean is true while consuming the whitespace characters of a
separator (the regexp's `\s+` is greedy, so a separator extends over the
whole whitespace run). -/
def splitSentencesAux : Bool → List Char → List Char → List (List Char)
  | _, [], acc => [acc.reverse]
  | true, c :: rest, acc =>
    if isJsWhitespace c then splitSentencesAux true rest acc
    else splitSentencesAux false rest (c :: acc)
  | false, c :: rest, acc =>
    if isJsWhitespace c ∧ lastIsSentencePunct acc then
      acc.reverse :: splitSentencesAux true rest []
    else splitSentencesAux false rest (c :: acc)

/-- `text.split(/(?<=[.!?])\s+/)`: split after `.`, `!` or `?` followed by
whitespace, the separator being the whole whitespace run. -/
def splitSentences (s : String) : List String :=
  (splitSentencesAux false s.data []).map fun l => ⟨l⟩

/-- `arr.join(' ')`. -/
def joinSpace (l : List String) : String :=
  String.intercalate " " l

/-- `arr.slice(-k)` for `k ≥ 1`: the last `k` elements (the whole list when
`k` exceeds its length). -/
def lastSlice (k : ℕ) (l : List α) : List α :=
  l.drop (l.length - k)

/-- Sum of estimated tokens of a list of sentences
(`arr.reduce((sum, s) => sum + estimateTokens(s), 0)`). -/
def sumTokens (l : List String) : ℕ :=
  (l.map estimateTokens).sum

/-- The number of overlap sentences kept when a chunk closes:
`Math.max(1, Math.floor((overlapTokens / maxTokens) * currentChunk.length))`. -/
def overlapCount (overlapTokens maxTokens : ℚ) (chunkLen : ℕ) : ℕ :=
  max 1 (Int.toNat ⌊overlapTokens / maxTokens * (chunkLen : ℚ)⌋)

/-- The sentence-accumulation loop of `chunkText`, at the level of sentence
lists (the source pushes `currentChunk.join(' ')`; joining is deferred to
`chunkText` below, which maps `joinSpace` over the result).  State:
`chunks` are the closed chunks, `current` the running chunk, `curTok` the
running token estimate. -/
def chunkLoop (maxTokens overlapTokens : ℚ) :
    List String → List (List String) → List String → ℕ → List (List String)
  | [], chunks, current, _ =>
    if current.length > 0 then chunks ++ [current] else chunks
  | s :: rest, chunks, current, curTok =>
    let sentenceTokens := estimateTokens s
    if (curTok + sentenceTokens : ℚ) > maxTokens ∧ current.length > 0 then
      let kept := lastSlice (overlapCount overlapTokens maxTokens current.length) current
      chunkLoop maxTokens overlapTokens rest (chunks ++ [current])
        (kept ++ [s]) (sumTokens kept + sentenceTokens)
    else
      chunkLoop maxTokens overlapTokens rest chunks (current ++ [s]) (curTok + sentenceTokens)

/-- `chunkText` from utils.ts. -/
def chunkText (text : String) (maxTokens overlapTokens : ℚ) : List String :=
  let sentences := splitSentences text
  if sentences.length = 0 then [text]
  else
    let chunks := (chunkLoop maxTokens overlapTokens sentences [] [] 0).map joinSpace
    if chunks.length > 0 then chunks else [text]

/-! ## Association-list model of a JavaScript `Map` -/

/-- `map.get(k)`. -/
def mapGet (m : List (String × β)) (k : String) : Option β :=
  (m.find? fun p => p.1 == k).map fun p => p.2

/-- `map.set(k, v)`: overwrite in place when the key exists, else append. -/
def mapSet (m : List (String × β)) (k : String) (v : β) : List (String × β) :=
  if m.any fun p => p.1 == k then
    m.map fun p => if p.1 == k then (k, v) else p
  else m ++ [(k, v)]

/-- `map.delete(k)` (the updated map). -/
def mapDelete (m : List (String × β)) (k : String) : List (String × β) :=
  m.filter fun p => !(p.1 == k)

/-- `map.has(k)`. -/
def mapHasKey (m : List (String × β)) (k : String) : Bool :=
  m.any fun p => p.1 == k

/-- Key uniqueness: the invariant every JavaScript `Map` enjoys. -/
def mapWF (m : List (String × β)) : Prop :=
  (m.map Prod.fst).Nodup

/-! ## Similarity primitives (src: vector-store.ts) -/

/-- The error thrown by `cosineSimilarity` on vectors of unequal length
(`Vector dimension mismatch: la vs lb`). -/
inductive VectorError
  | dimensionMismatch (la lb : ℕ)
deriving DecidableEq

/-- The dot-product accumulator of the `cosineSimilarity` loop. -/
def dotProduct (a b : List ℝ) : ℝ :=
  (List.zipWith (fun x y => x * y) a b).sum

/-- The squared-magnitude accumulator of the `cosineSimilarity` loop. -/
def sumSquares (a : List ℝ) : ℝ :=
  (a.map fun x => x * x).sum

/-- `Math.sqrt` of the accumulated squares. -/
noncomputable def magnitude (a : List ℝ) : ℝ :=
  Real.sqrt (sumSquares a)

/-- `cosineSimilarity` from vector-store.ts. -/
noncomputable def cosineSimilarity (a b : List ℝ) : Except VectorError ℝ :=
  if a.length ≠ b.length then .error (.dimensionMismatch a.length b.length)
  else if a.length = 0 then .ok 0
  else if magnitude a = 0 ∨ magnitude b = 0 then .ok 0
  else .ok (dotProduct a b / (magnitude a * magnitude b))

/-! ## Vector store (src: vector-store.ts) -/

/-- `Required<VectorStoreConfig>` after the constructor fills defaults. -/
structure VectorStoreConfig where
  minSimilarity : ℚ
  defaultLimit : ℕ
  cacheEmbeddings : Bool

/-- The optional `VectorStoreConfig` accepted by the constructor. -/
structure VectorStoreConfigInput where
  minSimilarity : Option ℚ
  defaultLimit : Option ℕ
  cacheEmbeddings : Option Bool

/-- The `VectorStore` constructor: fill in defaults `0.7`, `10`, `true`. -/
def mkVectorStoreConfig (c : VectorStoreConfigInput) : VectorStoreConfig :=
  { minSimilarity := c.minSimilarity.getD (7/10)
    defaultLimit := c.defaultLimit.getD 10
    cacheEmbeddings := c.cacheEmbeddings.getD true }

/-- `VectorEntry<T>`. -/
structure VectorEntry (M : Type) where
  id : String
  vector : List ℝ
  metadata : Option M

/-- `SearchResult<T>`. -/
structure SearchResult (M : Type) where
  id : String
  similarity : ℝ
  metadata : Option M

/-- The `VectorStore<T>` instance state: its config and its
`Map<string, VectorEntry<T>>`. -/
structure VectorStore (M : Type) where
  config : VectorStoreConfig
  vectors : List (String × VectorEntry M)

/-- A fresh store. -/
def VectorStore.empty (cfg : VectorStoreConfig) : VectorStore M :=
  ⟨cfg, []⟩

/-- `add(id, vector, metadata?)`. -/
def VectorStore.add (s : VectorStore M) (id : String) (vector : List ℝ)
    (metadata : Option M) : VectorStore M :=
  { s with vectors := mapSet s.vectors id ⟨id, vector, metadata⟩ }

/-- `addBatch(entries)`: sequential `add`. -/
def VectorStore.addBatch (s : VectorStore M)
    (entries : List (String × List ℝ × Option M)) : VectorStore M :=
  entries.foldl (fun st e => st.add e.1 e.2.1 e.2.2) s

/-- `get(id)`. -/
def VectorStore.get (s : VectorStore M) (id : String) : Option (VectorEntry M) :=
  mapGet s.vectors id

/-- `remove(id)`: the updated store and whether an entry existed. -/
def VectorStore.remove (s : VectorStore M) (id : String) : VectorStore M × Bool :=
  ({ s with vectors := mapDelete s.vectors id }, mapHasKey s.vectors id)

/-- `clear()`. -/
def VectorStore.clear (s : VectorStore M) : VectorStore M :=
  { s with vectors := [] }

/-- `size()`. -/
def VectorStore.size (s : VectorStore M) : ℕ :=
  s.vectors.length

/-- `keys()`. -/
def VectorStore.keysList (s : VectorStore M) : List String :=
  s.vectors.map Prod.fst

/-- `export()`: all entries in iteration order (`export` is a Lean keyword,
hence the name). -/
def VectorStore.exportEntries (s : VectorStore M) : List (VectorEntry M) :=
  s.vectors.map Prod.snd

/-- `import(entries)`: upsert each entry (`import` is a Lean keyword,
hence the name). -/
def VectorStore.importEntries (s : VectorStore M)
    (entries : List (VectorEntry M)) : VectorStore M :=
  entries.foldl (fun st e => { st with vectors := mapSet st.vectors e.id e }) s

/-- The per-call search options (the enhanced layer adds `temporalBoost`;
the lower layers ignore it). -/
structure SearchOptions (M : Type) where
  limit : Option ℕ
  minSimilarity : Option ℚ
  filter : Option (Option M → Bool)
  temporalBoost : Option Bool

/-- `options?.filter && !options.filter(entry.metadata)`: whether the scan
skips an entry before computing any similarity. -/
def filterSkips (filt : Option (Option M → Bool)) (md : Option M) : Bool :=
  match filt with
  | some f => !(f md)
  | none => false

/-- The scan loop of `search`: iterate the entries in insertion order,
skip filtered entries, compute the similarity (an exception aborts the
whole search), keep entries with `similarity >= minSim`. -/
noncomputable def scanEntries (q : List ℝ) (minSim : ℝ)
    (filt : Option (Option M → Bool)) :
    List (VectorEntry M) → Except VectorError (List (SearchResult M))
  | [] => .ok []
  | e :: rest =>
    if filterSkips filt e.metadata then scanEntries q minSim filt rest
    else
      match cosineSimilarity q e.vector with
      | .error err => .error err
      | .ok similarity =>
        match scanEntries q minSim filt rest with
        | .error err => .error err
        | .ok results =>
          .ok (if similarity ≥ minSim then ⟨e.id, similarity, e.metadata⟩ :: results
               else results)

/-- `results.sort((a, b) => b.similarity - a.similarity)`: a stable sort
putting `a` before `b` when the comparator is nonpositive, i.e. when
`b.similarity ≤ a.similarity`. -/
noncomputable def sortBySimilarityDesc (l : List (SearchResult M)) : List (SearchResult M) :=
  l.mergeSort fun a b => decide (b.similarity ≤ a.similarity)

/-- `search(queryVector, options?)` from vector-store.ts. -/
noncomputable def VectorStore.search (s : VectorStore M) (queryVector : List ℝ)
    (opts : SearchOptions M) : Except VectorError (List (SearchResult M)) :=
  let minSim : ℝ := ((opts.minSimilarity.getD s.config.minSimilarity : ℚ) : ℝ)
  let limit : ℕ := opts.limit.getD s.config.defaultLimit
  match scanEntries queryVector minSim opts.filter (s.vectors.map Prod.snd) with
  | .error err => .error err
  | .ok results => .ok ((sortBySimilarityDesc results).take limit)

/-! ## Document layer (src: semantic-search.ts) -/

/-- `Document<T>`. -/
structure Document (M : Type) where
  id : String
  text : String
  metadata : Option M

/-- A search result joined with the stored original text. -/
structure TextSearchResult (M : Type) where
  id : String
  similarity : ℝ
  metadata : Option M
  text : String

/-- The persisted item shape `{id, text, vector, metadata}`. -/
structure StoredItem (M : Type) where
  id : String
  text : String
  vector : List ℝ
  metadata : Option M

/-- The `SemanticSearch` instance state: its vector store and its
`id -> original text` map. -/
structure SemanticSearchState (M : Type) where
  vectorStore : VectorStore M
  documents : List (String × String)

/-- `addDocument`: embed, store the vector, record the text.  The external
embedder is the parameter `embed`. -/
def SemanticSearch.addDocument (embed : String → List ℝ)
    (s : SemanticSearchState M) (doc : Document M) : SemanticSearchState M :=
  { vectorStore := s.vectorStore.add doc.id (embed doc.text) doc.metadata
    documents := mapSet s.documents doc.id doc.text }

/-- `search(query, options?)`: embed the query, delegate to the vector
store, join results with the stored text (empty string when absent). -/
noncomputable def SemanticSearch.search (embed : String → List ℝ)
    (s : SemanticSearchState M) (query : String) (opts : SearchOptions M) :
    Except VectorError (List (TextSearchResult M)) :=
  match s.vectorStore.search (embed query) opts with
  | .error err => .error err
  | .ok results =>
    .ok (results.map fun r =>
      ⟨r.id, r.similarity, r.metadata, (mapGet s.documents r.id).getD ""⟩)

/-- `remove(id)`. -/
def SemanticSearch.remove (s : SemanticSearchState M) (id : String) :
    SemanticSearchState M × Bool :=
  ({ vectorStore := (s.vectorStore.remove id).1
     documents := mapDelete s.documents id }, (s.vectorStore.remove id).2)

/-- `clear()`. -/
def SemanticSearch.clear (s : SemanticSearchState M) : SemanticSearchState M :=
  { vectorStore := s.vectorStore.clear, documents := [] }

/-- `size()`. -/
def SemanticSearch.size (s : SemanticSearchState M) : ℕ :=
  s.vectorStore.size

/-- `export()`: each vector entry joined with its text. -/
def SemanticSearch.exportItems (s : SemanticSearchState M) : List (StoredItem M) :=
  (s.vectorStore.vectors.map Prod.snd).map fun v =>
    ⟨v.id, (mapGet s.documents v.id).getD "", v.vector, v.metadata⟩

/-- `import(data)`: upsert each item into both maps. -/
def SemanticSearch.importItems (s : SemanticSearchState M)
    (data : List (StoredItem M)) : SemanticSearchState M :=
  data.foldl
    (fun st item =>
      { vectorStore := st.vectorStore.add item.id item.vector item.metadata
        documents := mapSet st.documents item.id item.text })
    s

/-! ## Enhanced layer (src: semantic-search-enhanced.ts) -/

/-- `DocumentMetadata`: the known fields plus an opaque bag for any other
caller-defined fields.  JavaScript `undefined` is `none`. -/
structure DocMetadata where
  timestamp : Option ℚ
  chunkIndex : Option ℕ
  parentId : Option String
  extra : List (String × String)
deriving DecidableEq

/-- `Required<EnhancedSemanticSearchConfig>` after the constructor. -/
structure EnhancedConfig where
  model : String
  minSimilarity : ℚ
  cacheDir : String
  progressLogging : Bool
  autoSave : Bool
  storePath : String
  autoChunk : Bool
  maxChunkTokens : ℚ
  chunkOverlap : ℚ
  deduplicateExact : Bool
  deduplicateSimilarity : ℚ
  temporalBoost : Bool
  verbose : Bool

/-- The optional configuration accepted by the constructor. -/
structure EnhancedConfigInput where
  model : Option String
  minSimilarity : Option ℚ
  cacheDir : Option String
  progressLogging : Option Bool
  autoSave : Option Bool
  storePath : Option String
  autoChunk : Option Bool
  maxChunkTokens : Option ℚ
  chunkOverlap : Option ℚ
  deduplicateExact : Option Bool
  deduplicateSimilarity : Option ℚ
  temporalBoost : Option Bool
  verbose : Option Bool

/-- The configuration-error condition named by the specification; the
result type of the constructor allows it so that its absence is expressible. -/
inductive ConfigError
  | configurationError (msg : String)
deriving DecidableEq

/-- The `EnhancedSemanticSearch` constructor (src lines 32-51): it fills in
every default and performs no validation — it never fails, whatever the
input; in particular `storePath` always falls back to
`.semantic-store.json`. -/
def mkEnhancedConfig (c : EnhancedConfigInput) : Except ConfigError EnhancedConfig :=
  .ok
    { model := c.model.getD "Xenova/all-MiniLM-L6-v2"
      minSimilarity := c.minSimilarity.getD (7/10)
      cacheDir := c.cacheDir.getD ".cache/transformers"
      progressLogging := c.progressLogging.getD false
      autoSave := c.autoSave.getD false
      storePath := c.storePath.getD ".semantic-store.json"
      autoChunk := c.autoChunk.getD false
      maxChunkTokens := c.maxChunkTokens.getD 500
      chunkOverlap := c.chunkOverlap.getD 50
      deduplicateExact := c.deduplicateExact.getD true
      deduplicateSimilarity := c.deduplicateSimilarity.getD 0
      temporalBoost := c.temporalBoost.getD false
      verbose := c.verbose.getD false }

/-- The `EnhancedSemanticSearch` instance state: the base layer plus the
normalized-text index `textHashes : normalized text -> id`. -/
structure EnhancedState where
  base : SemanticSearchState DocMetadata
  textHashes : List (String × String)

/-- The empty state of a fresh instance. -/
def EnhancedState.empty (cfg : VectorStoreConfig) : EnhancedState :=
  ⟨⟨VectorStore.empty cfg, []⟩, []⟩

/-- `checkExactDuplicate`: gated by `deduplicateExact`, then an O(1) lookup
of the canonicalized text. -/
def checkExactDuplicate (cfg : EnhancedConfig) (s : EnhancedState)
    (text : String) : Option String :=
  if cfg.deduplicateExact then mapGet s.textHashes (normalizeText text)
  else none

/-- JavaScript truthiness of the `string | null` value `exactDup` tested by
`if (exactDup)` in `addDocument` (line 136): `null` and the empty string
are falsy, every other string is truthy. -/
def truthyHit : Option String → Bool
  | some d => d != ""
  | none => false

/-- `checkFuzzyDuplicate`: disabled exactly when
`deduplicateSimilarity === 0`; otherwise a base-layer search with
`limit: 1` and `minSimilarity: deduplicateSimilarity`, returning its top
hit. -/
noncomputable def checkFuzzyDuplicate (cfg : EnhancedConfig)
    (embed : String → List ℝ) (s : EnhancedState) (text : String) :
    Except VectorError (Option (String × ℝ)) :=
  if cfg.deduplicateSimilarity = 0 then .ok none
  else
    match SemanticSearch.search embed s.base text
        ⟨some 1, some cfg.deduplicateSimilarity, none, none⟩ with
    | .error err => .error err
    | .ok results => .ok (results.head?.map fun r => (r.id, r.similarity))

/-- `{ ...doc.metadata }`: spreading `undefined` gives the empty object. -/
def spreadMeta (md : Option DocMetadata) : DocMetadata :=
  md.getD ⟨none, none, none, []⟩

/-- Lines 153-156 of semantic-search-enhanced.ts: when `temporalBoost` is
set and `!metadata.timestamp` (JavaScript falsiness: an absent timestamp or
the number `0`), stamp the current time. -/
def stampTimestamp (cfg : EnhancedConfig) (now : ℚ) (md : DocMetadata) : DocMetadata :=
  if cfg.temporalBoost ∧ (md.timestamp = none ∨ md.timestamp = some 0) then
    { md with timestamp := some now }
  else md

/-- The chunk documents built by the `addLongDocument` loop: chunk `i` gets
id `{parentId}#chunk{i}` (the parent id itself for a single chunk) and
metadata `{...doc.metadata, chunkIndex: i, parentId: doc.id}`. -/
def chunkRecords (cfg : EnhancedConfig) (doc : Document DocMetadata) :
    List (Document DocMetadata) :=
  let chunks := chunkText doc.text cfg.maxChunkTokens cfg.chunkOverlap
  (List.range chunks.length).map fun i =>
    { id := if chunks.length = 1 then doc.id else doc.id ++ "#chunk" ++ toString i
      text := chunks.getD i ""
      metadata := some { spreadMeta doc.metadata with
                          chunkIndex := some i, parentId := some doc.id } }

/-- One iteration of the `addLongDocument` loop: `super.addDocument` then
`textHashes.set(normalizeText(chunk), chunkId)`. -/
def insertChunk (embed : String → List ℝ) (s : EnhancedState)
    (r : Document DocMetadata) : EnhancedState :=
  { base := SemanticSearch.addDocument embed s.base r
    textHashes := mapSet s.textHashes (normalizeText r.text) r.id }

/-- `addLongDocument`. -/
def addLongDocument (cfg : EnhancedConfig) (embed : String → List ℝ)
    (s : EnhancedState) (doc : Document DocMetadata) : EnhancedState :=
  (chunkRecords cfg doc).foldl (insertChunk embed) s

/-- `addDocument` from semantic-search-enhanced.ts.  The boolean output
records whether the final `save()` call was reached (a duplicate skip
returns early and triggers no save); a dimension-mismatch exception from
the fuzzy search propagates, leaving the state untouched.  The exact
duplicate gate is the truthiness test `if (exactDup)`: an exact hit whose
stored id is the empty string is falsy and falls through to the add. -/
noncomputable def Enhanced.addDocument (cfg : EnhancedConfig)
    (embed : String → List ℝ) (now : ℚ) (s : EnhancedState)
    (doc : Document DocMetadata) : Except VectorError (EnhancedState × Bool) :=
  if truthyHit (checkExactDuplicate cfg s doc.text) then .ok (s, false)
  else
    match checkFuzzyDuplicate cfg embed s doc.text with
    | .error err => .error err
    | .ok (some _) => .ok (s, false)
    | .ok none =>
      let metadata := stampTimestamp cfg now (spreadMeta doc.metadata)
      let docm : Document DocMetadata := { doc with metadata := some metadata }
      if cfg.autoChunk ∧ (estimateTokens doc.text : ℚ) > cfg.maxChunkTokens then
        .ok (addLongDocument cfg embed s docm, true)
      else
        .ok ({ base := SemanticSearch.addDocument embed s.base docm
               textHashes := mapSet s.textHashes (normalizeText doc.text) doc.id },
             true)

/-- The temporal rescoring of one result (lines 223-238):
`ageDays = (now - (metadata?.timestamp ?? now)) / 86_400_000`,
`recencyBoost = 1 / (1 + ln(1 + ageDays))`,
`boosted = similarity * (0.7 + 0.3 * recencyBoost)`. -/
noncomputable def boostResult (now : ℚ) (r : TextSearchResult DocMetadata) :
    TextSearchResult DocMetadata :=
  let timestamp : ℚ := (r.metadata.bind fun m => m.timestamp).getD now
  let ageDays : ℝ := ((now : ℝ) - (timestamp : ℝ)) / (1000 * 60 * 60 * 24)
  let recencyBoost : ℝ := 1 / (1 + Real.log (1 + ageDays))
  { r with similarity := r.similarity * (0.7 + 0.3 * recencyBoost) }

/-- The in-place stable re-sort of boosted results. -/
noncomputable def sortTextResultsDesc (l : List (TextSearchResult M)) :
    List (TextSearchResult M) :=
  l.mergeSort fun a b => decide (b.similarity ≤ a.similarity)

/-- `search` from semantic-search-enhanced.ts: delegate to the base layer;
when boosting applies, rescore, re-sort, and re-slice only when a per-call
`limit` was passed and is nonzero (`if (options?.limit)`). -/
noncomputable def Enhanced.search (cfg : EnhancedConfig)
    (embed : String → List ℝ) (now : ℚ) (s : EnhancedState) (query : String)
    (opts : SearchOptions DocMetadata) :
    Except VectorError (List (TextSearchResult DocMetadata)) :=
  match SemanticSearch.search embed s.base query opts with
  | .error err => .error err
  | .ok results =>
    if opts.temporalBoost.getD cfg.temporalBoost then
      let sorted := sortTextResultsDesc (results.map (boostResult now))
      .ok (match opts.limit with
           | some l => if l ≠ 0 then sorted.take l else sorted
           | none => sorted)
    else .ok results

/-- Modelled from the claim's words (claim C5), for comparison with
`Enhanced.search`: boost every threshold-passing result and apply the
`limit` truncation only after boosting. -/
noncomputable def Enhanced.searchSpec (embed : String → List ℝ) (now : ℚ)
    (s : EnhancedState) (query : String) (opts : SearchOptions DocMetadata) :
    Except VectorError (List (TextSearchResult DocMetadata)) :=
  let q := embed query
  let minSim : ℝ := ((opts.minSimilarity.getD s.base.vectorStore.config.minSimilarity : ℚ) : ℝ)
  let limit : ℕ := opts.limit.getD s.base.vectorStore.config.defaultLimit
  match scanEntries q minSim opts.filter (s.base.vectorStore.vectors.map Prod.snd) with
  | .error err => .error err
  | .ok results =>
    let withText := results.map fun r =>
      TextSearchResult.mk r.id r.similarity r.metadata ((mapGet s.base.documents r.id).getD "")
    .ok ((sortTextResultsDesc (withText.map (boostResult now))).take limit)

/-- `remove(id)` from semantic-search-enhanced.ts: find the document among
the exported items, delete its canonicalized text from the index, then
remove it from the base layer. -/
def Enhanced.remove (s : EnhancedState) (id : String) : EnhancedState × Bool :=
  let exported := SemanticSearch.exportItems s.base
  let textHashes1 :=
    match exported.find? fun d => d.id == id with
    | some d => mapDelete s.textHashes (normalizeText d.text)
    | none => s.textHashes
  ({ base := (SemanticSearch.remove s.base id).1, textHashes := textHashes1 },
   (SemanticSearch.remove s.base id).2)

/-- `clear()` from semantic-search-enhanced.ts. -/
def Enhanced.clear (s : EnhancedState) : EnhancedState :=
  { base := SemanticSearch.clear s.base, textHashes := [] }

/-- `load()` with parsed array `data`: `super.import(data)`, then map each
item's canonicalized text to its id. -/
def Enhanced.load (s : EnhancedState) (data : List (StoredItem DocMetadata)) :
    EnhancedState :=
  { base := SemanticSearch.importItems s.base data
    textHashes := data.foldl (fun h item => mapSet h (normalizeText item.text) item.id)
      s.textHashes }

/-- The mutating operations of the enhanced layer. -/
inductive EnhancedOp
  | addDoc (doc : Document DocMetadata)
  | removeDoc (id : String)
  | clearAll
  | loadData (data : List (StoredItem DocMetadata))

/-- Apply one operation; an exception from `addDocument` propagates to the
caller with no state change. -/
noncomputable def Enhanced.applyOp (cfg : EnhancedConfig)
    (embed : String → List ℝ) (now : ℚ) (s : EnhancedState) :
    EnhancedOp → EnhancedState
  | .addDoc doc =>
    match Enhanced.addDocument cfg embed now s doc with
    | .ok (s1, _) => s1
    | .error _ => s
  | .removeDoc id => (Enhanced.remove s id).1
  | .clearAll => Enhanced.clear s
  | .loadData data => Enhanced.load s data

/-- The `(id, text)` records an operation inserts into the index (used to
state the amended normalized-text-index invariant). -/
noncomputable def insertedRecords (cfg : EnhancedConfig)
    (embed : String → List ℝ) (now : ℚ) (s : EnhancedState) :
    EnhancedOp → List (String × String)
  | .addDoc doc =>
    if truthyHit (checkExactDuplicate cfg s doc.text) then []
    else
      match checkFuzzyDuplicate cfg embed s doc.text with
      | .error _ => []
      | .ok (some _) => []
      | .ok none =>
        let metadata := stampTimestamp cfg now (spreadMeta doc.metadata)
        let docm : Document DocMetadata := { doc with metadata := some metadata }
        if cfg.autoChunk ∧ (estimateTokens doc.text : ℚ) > cfg.maxChunkTokens then
          (chunkRecords cfg docm).map fun r => (r.id, r.text)
        else [(doc.id, doc.text)]
  | .removeDoc _ => []
  | .clearAll => []
  | .loadData data => data.map fun item => (item.id, item.text)

/-- The documents an `addDocument` call actually feeds through the
`insertChunk` step: none on a duplicate skip or an error, the chunk
records on the chunking path, the single stamped document otherwise. -/
noncomputable def addRecords (cfg : EnhancedConfig) (embed : String → List ℝ)
    (now : ℚ) (s : EnhancedState) (doc : Document DocMetadata) :
    List (Document DocMetadata) :=
  if truthyHit (checkExactDuplicate cfg s doc.text) then []
  else
    match checkFuzzyDuplicate cfg embed s doc.text with
    | .error _ => []
    | .ok (some _) => []
    | .ok none =>
      let metadata := stampTimestamp cfg now (spreadMeta doc.metadata)
      let docm : Document DocMetadata := { doc with metadata := some metadata }
      if cfg.autoChunk ∧ (estimateTokens doc.text : ℚ) > cfg.maxChunkTokens then
        chunkRecords cfg docm
      else [docm]

/-! ## Vector-store operation sequences (claim C7) -/

/-- The mutating operations of the vector store. -/
inductive StoreOp (M : Type)
  | add (id : String) (vector : List ℝ) (metadata : Option M)
  | addBatch (entries : List (String × List ℝ × Option M))
  | remove (id : String)
  | clear
  | importOp (entries : List (VectorEntry M))

/-- Apply one store operation. -/
def VectorStore.applyOp (s : VectorStore M) : StoreOp M → VectorStore M
  | .add id v md => s.add id v md
  | .addBatch es => s.addBatch es
  | .remove id => (s.remove id).1
  | .clear => s.clear
  | .importOp es => s.importEntries es

/-- Apply a sequence of store operations to a fresh store. -/
def VectorStore.applyOps (cfg : VectorStoreConfig) (ops : List (StoreOp M)) :
    VectorStore M :=
  ops.foldl VectorStore.applyOp (VectorStore.empty cfg)

/-! ## Spec-side chunking (claim C4) -/

/-- Modelled from the claim's words (claim C4): greedily accumulate
sentences into the current chunk until adding the next sentence would
exceed `maxTokens`; then close the chunk and seed the next one with the
last `max(1, floor((overlapTokens / maxTokens) * sentenceCount))` sentences
of the just-closed chunk. -/
def chunkBuild (maxTokens overlapTokens : ℚ) :
    List String → List String → List (List String)
  | current, [] => if current.length > 0 then [current] else []
  | current, s :: rest =>
    if (sumTokens current + estimateTokens s : ℚ) > maxTokens ∧ current.length > 0 then
      current ::
        chunkBuild maxTokens overlapTokens
          (lastSlice (overlapCount overlapTokens maxTokens current.length) current ++ [s])
          rest
    else chunkBuild maxTokens overlapTokens (current ++ [s]) rest

/-- Modelled from the claim's words (claim C4): the chunking algorithm as
the specification describes it. -/
def chunkTextSpec (text : String) (maxTokens overlapTokens : ℚ) : List String :=
  let sentences := splitSentences text
  if sentences.length = 0 then [text]
  else
    let chunks := (chunkBuild maxTokens overlapTokens [] sentences).map joinSpace
    if chunks.length > 0 then chunks else [text]

/-! ## Invariants of the enhanced layer (claim C8) -/

/-- Structural well-formedness of an enhanced state: the three maps have
unique keys, vector entries are keyed by their own id, and the vector
store and the text map hold the same ids. -/
def enhancedWF (s : EnhancedState) : Prop :=
  mapWF s.base.documents
  ∧ mapWF s.base.vectorStore.vectors
  ∧ mapWF s.textHashes
  ∧ (∀ p ∈ s.base.vectorStore.vectors, p.1 = p.2.id)
  ∧ (∀ id, (mapGet s.base.vectorStore.vectors id).isSome
      ↔ (mapGet s.base.documents id).isSome)

/-- The normalized-text-index invariant of the specification: every stored
document's canonicalized text is a key mapping back to that document's id. -/
def textIndexInv (s : EnhancedState) : Prop :=
  ∀ id text, mapGet s.base.documents id = some text →
    mapGet s.textHashes (normalizeText text) = some id

/-- No two of the given documents and inserted records assign the same
canonicalized text to different ids. -/
def canonSeparated (docs records : List (String × String)) : Prop :=
  ∀ p q : String × String, (p ∈ docs ∨ p ∈ records) → (q ∈ docs ∨ q ∈ records) →
    normalizeText p.2 = normalizeText q.2 → p.1 = q.1

/-! ## Concrete configurations used for evaluation -/

/-- The all-default enhanced configuration (what the constructor yields on
an empty input). -/
def defaultEnhancedConfig : EnhancedConfig :=
  ⟨"Xenova/all-MiniLM-L6-v2", 7/10, ".cache/transformers", false, false,
   ".semantic-store.json", false, 500, 50, true, 0, false, false⟩

/-- Defaults with `temporalBoost` enabled. -/
def boostEnhancedConfig : EnhancedConfig :=
  { defaultEnhancedConfig with temporalBoost := true }

/-- Defaults with fuzzy deduplication at threshold 1/2. -/
def fuzzyEnhancedConfig : EnhancedConfig :=
  { defaultEnhancedConfig with deduplicateSimilarity := 1/2 }

/-- Defaults with chunking enabled at a tiny chunk size. -/
def chunkEnhancedConfig : EnhancedConfig :=
  { defaultEnhancedConfig with autoChunk := true, maxChunkTokens := 2, chunkOverlap := 1 }

/-- A concrete state with two stored documents of equal raw similarity to
the query `[1]`: `old` is one day old at time 86400000, `recent` carries
that exact time. -/
def twoDocState : EnhancedState :=
  ⟨⟨⟨mkVectorStoreConfig ⟨none, none, none⟩,
     [("old", ⟨"old", [1], some ⟨some 0, none, none, []⟩⟩),
      ("recent", ⟨"recent", [1], some ⟨some 86400000, none, none, []⟩⟩)]⟩,
    [("old", "o"), ("recent", "r")]⟩, []⟩

/-! ## Theorems -/

theorem mapGet_nil (k : String) : mapGet ([] : List (String × β)) k = none := rfl

theorem mapGet_cons (q : String × β) (rest : List (String × β)) (k : String) :
    mapGet (q :: rest) k = if q.1 = k then some q.2 else mapGet rest k := by
  by_cases hq : q.1 = k
  · simp [mapGet, List.find?_cons_of_pos, hq]
  · simp [mapGet, List.find?_cons_of_neg, hq]

theorem mapGet_eq_none (m : List (String × β)) (k : String) :
    mapGet m k = none ↔ ∀ p ∈ m, p.1 ≠ k := by
  simp [mapGet, List.find?_eq_none, beq_iff_eq]

theorem mapHasKey_iff (m : List (String × β)) (k : String) :
    mapHasKey m k = true ↔ ∃ v, mapGet m k = some v := by
  induction m with
  | nil => simp [mapHasKey, mapGet]
  | cons q rest ih =>
    by_cases hq : q.1 = k
    · simp [mapHasKey, mapGet_cons, hq]
    · simpa [mapHasKey, mapGet_cons, hq] using ih

theorem mapGet_overwrite (m : List (String × β)) (k : String) (v : β) :
    mapGet (m.map fun p => if p.1 == k then (k, v) else p) k
      = (mapGet m k).map fun _ => v := by
  induction m with
  | nil => simp [mapGet]
  | cons q rest ih =>
    by_cases hq : q.1 = k
    · simp [mapGet_cons, hq]
    · simpa [mapGet_cons, hq] using ih

theorem mapGet_overwrite_other (m : List (String × β)) (k k' : String) (v : β)
    (hne : k' ≠ k) :
    mapGet (m.map fun p => if p.1 == k then (k, v) else p) k' = mapGet m k' := by
  induction m with
  | nil => simp [mapGet]
  | cons q rest ih =>
    by_cases hq : q.1 = k
    · simpa [mapGet_cons, hq, Ne.symm hne] using ih
    · by_cases hq' : q.1 = k'
      · simp [mapGet_cons, hq, hq', hne]
      · simpa [mapGet_cons, hq, hq'] using ih

theorem mapGet_append_single (m : List (String × β)) (k k' : String) (v : β) :
    mapGet (m ++ [(k, v)]) k'
      = match mapGet m k' with
        | some w => some w
        | none => if k = k' then some v else none := by
  induction m with
  | nil =>
    by_cases h : k = k' <;> simp [mapGet_cons, mapGet, h]
  | cons q rest ih =>
    by_cases hq : q.1 = k'
    · simp [List.cons_append, mapGet_cons, hq]
    · simpa [List.cons_append, mapGet_cons, hq] using ih

theorem mapGet_set_self (m : List (String × β)) (k : String) (v : β) :
    mapGet (mapSet m k v) k = some v := by
  unfold mapSet
  by_cases hany : (m.any fun p => p.1 == k) = true
  · rw [if_pos hany, mapGet_overwrite]
    have : mapHasKey m k = true := hany
    obtain ⟨w, hw⟩ := (mapHasKey_iff m k).mp this
    simp [hw]
  · rw [if_neg hany, mapGet_append_single]
    have : mapGet m k = none := by
      rcases h : mapGet m k with _ | w
      · rfl
      · exact absurd ((mapHasKey_iff m k).mpr ⟨w, h⟩) hany
    simp [this]

theorem mapGet_set_other (m : List (String × β)) (k k' : String) (v : β)
    (hne : k' ≠ k) : mapGet (mapSet m k v) k' = mapGet m k' := by
  unfold mapSet
  by_cases hany : (m.any fun p => p.1 == k) = true
  · rw [if_pos hany, mapGet_overwrite_other m k k' v hne]
  · rw [if_neg hany, mapGet_append_single]
    rcases h : mapGet m k' with _ | w
    · simp [Ne.symm hne]
    · simp

theorem mapGet_delete_self (m : List (String × β)) (k : String) :
    mapGet (mapDelete m k) k = none := by
  rw [mapGet_eq_none]
  intro p hp
  simp only [mapDelete, List.mem_filter, Bool.not_eq_eq_eq_not, Bool.not_true,
    beq_eq_false_iff_ne] at hp
  exact hp.2

theorem mapGet_delete_other (m : List (String × β)) (k k' : String)
    (hne : k' ≠ k) : mapGet (mapDelete m k) k' = mapGet m k' := by
  induction m with
  | nil => simp [mapDelete, mapGet]
  | cons q rest ih =>
    by_cases hq : q.1 = k
    · have hq' : q.1 ≠ k' := fun h => hne (h ▸ hq ▸ rfl)
      simpa [mapDelete, List.filter_cons, hq, mapGet_cons, hq', Ne.symm hne] using ih
    · by_cases hq' : q.1 = k'
      · simp [mapDelete, List.filter_cons, mapGet_cons, hq, hq', hne, beq_iff_eq]
      · simpa [mapDelete, List.filter_cons, mapGet_cons, hq, hq', beq_iff_eq] using ih

theorem mapWF_set (m : List (String × β)) (k : String) (v : β)
    (h : mapWF m) : mapWF (mapSet m k v) := by
  unfold mapWF mapSet
  split
  · have : (List.map Prod.fst (m.map fun p => if p.1 == k then (k, v) else p))
        = m.map Prod.fst := by
      rw [List.map_map]
      apply List.map_congr_left
      intro p _
      by_cases hp : p.1 = k
      · simp [hp]
      · simp [hp]
    rw [this]; exact h
  · rename_i hno
    simp only [List.any_eq_true, beq_iff_eq, not_exists, not_and] at hno
    simp only [List.map_append, List.map_cons, List.map_nil]
    rw [List.nodup_append]
    refine ⟨h, List.nodup_singleton k, ?_⟩
    intro a ha
    simp only [List.mem_map] at ha
    obtain ⟨p, hp, hpa⟩ := ha
    simp only [List.mem_singleton]
    intro hak
    exact hno p hp (hpa.trans hak)

theorem mapWF_delete (m : List (String × β)) (k : String)
    (h : mapWF m) : mapWF (mapDelete m k) := by
  unfold mapWF mapDelete
  exact (List.Sublist.map Prod.fst (List.filter_sublist m)).nodup h

theorem mapWF_nil : mapWF ([] : List (String × β)) := by
  simp [mapWF]

/-- With unique keys, membership in the association list is exactly a
successful lookup. -/
theorem mem_iff_mapGet (m : List (String × β)) (h : mapWF m) (k : String) (v : β) :
    (k, v) ∈ m ↔ mapGet m k = some v := by
  induction m with
  | nil => simp [mapGet]
  | cons q rest ih =>
    obtain ⟨q1, q2⟩ := q
    have h2 := h
    rw [mapWF, List.map_cons] at h2
    obtain ⟨hknot, htl⟩ := List.nodup_cons.mp h2
    have hwf : mapWF rest := htl
    rw [List.mem_cons, mapGet_cons]
    by_cases hq : (q1, q2).1 = k
    · simp only at hq
      subst hq
      rw [if_pos rfl]
      constructor
      · rintro (h1 | hm)
        · injection h1 with h1a h1b
          rw [h1b]
        · exact absurd (List.mem_map_of_mem Prod.fst hm) (by simpa using hknot)
      · intro hg
        have hv := Option.some.inj hg
        exact Or.inl (by rw [← hv])
    · rw [if_neg hq]
      constructor
      · rintro (h1 | hm)
        · injection h1 with h1a h1b
          exact absurd h1a.symm hq
        · exact (ih hwf).mp hm
      · intro hg
        exact Or.inr ((ih hwf).mpr hg)

/-! ### Claim C2: the cosineSimilarity contract -/

theorem cosineSimilarity_error_iff (a b : List ℝ) :
    (∃ la lb, cosineSimilarity a b = .error (.dimensionMismatch la lb))
      ↔ a.length ≠ b.length := by
  unfold cosineSimilarity
  by_cases h : a.length ≠ b.length
  · simp [h]
  · simp only [h, if_false]
    constructor
    · rintro ⟨la, lb, hc⟩
      by_cases h0 : a.length = 0 <;> by_cases hm : magnitude a = 0 ∨ magnitude b = 0 <;>
        simp [h0, hm] at hc
    · intro hc
      exact hc.elim

theorem magnitude_nil : magnitude ([] : List ℝ) = 0 := by
  simp [magnitude, sumSquares]

theorem magnitude_single_one : magnitude [(1 : ℝ)] = 1 := by
  simp [magnitude, sumSquares]

theorem magnitude_single_zero : magnitude [(0 : ℝ)] = 0 := by
  simp [magnitude, sumSquares]

/-- Claim C2: `cosineSimilarity(a, b)` fails with a dimension-mismatch
error exactly when the lengths differ; for equal lengths it returns `0`
when both vectors are zero-length and `0` whenever either magnitude is
exactly zero, and otherwise returns `dot(a,b) / (|a| * |b|)` with no
clamping to `[-1, 1]`. -/
theorem cosineSimilarity_contract (a b : List ℝ) :
    ((∃ la lb, cosineSimilarity a b = .error (.dimensionMismatch la lb))
        ↔ a.length ≠ b.length)
    ∧ (a = [] → b = [] → cosineSimilarity a b = .ok 0)
    ∧ (a.length = b.length → (magnitude a = 0 ∨ magnitude b = 0) →
        cosineSimilarity a b = .ok 0)
    ∧ (a.length = b.length → magnitude a ≠ 0 → magnitude b ≠ 0 →
        cosineSimilarity a b = .ok (dotProduct a b / (magnitude a * magnitude b))) := by
  refine ⟨cosineSimilarity_error_iff a b, ?_, ?_, ?_⟩
  · rintro rfl rfl
    simp [cosineSimilarity]
  · intro hlen hm
    unfold cosineSimilarity
    rw [if_neg (by simp [hlen])]
    by_cases h0 : a.length = 0
    · rw [if_pos h0]
    · rw [if_neg h0, if_pos hm]
  · intro hlen hma hmb
    unfold cosineSimilarity
    rw [if_neg (by simp [hlen])]
    have h0 : ¬ a.length = 0 := by
      intro h
      exact hma (by simp [List.length_eq_zero.mp h, magnitude_nil])
    rw [if_neg h0, if_neg (by tauto)]

theorem cosineSimilarity_contract_witness :
    (∃ la lb, cosineSimilarity [(1 : ℝ)] [] = .error (.dimensionMismatch la lb))
    ∧ cosineSimilarity ([] : List ℝ) [] = .ok 0
    ∧ cosineSimilarity [(0 : ℝ)] [(1 : ℝ)] = .ok 0
    ∧ cosineSimilarity [(1 : ℝ)] [(1 : ℝ)]
        = .ok (dotProduct [1] [1] / (magnitude [1] * magnitude [1])) := by
  refine ⟨(cosineSimilarity_contract [(1 : ℝ)] []).1.mpr (by simp),
    (cosineSimilarity_contract ([] : List ℝ) []).2.1 rfl rfl,
    (cosineSimilarity_contract [(0 : ℝ)] [(1 : ℝ)]).2.2.1 (by simp)
      (Or.inl magnitude_single_zero),
    (cosineSimilarity_contract [(1 : ℝ)] [(1 : ℝ)]).2.2.2 rfl ?_ ?_⟩
  all_goals rw [magnitude_single_one]; norm_num

/-! ### Claim C1: the vector-store search contract -/

theorem scanEntries_mem (q : List ℝ) (minSim : ℝ)
    (filt : Option (Option M → Bool)) (entries : List (VectorEntry M)) :
    ∀ res : List (SearchResult M),
      scanEntries q minSim filt entries = .ok res →
      ∀ r : SearchResult M,
        (r ∈ res ↔ ∃ e ∈ entries,
          filterSkips filt e.metadata = false ∧
          cosineSimilarity q e.vector = .ok r.similarity ∧
          minSim ≤ r.similarity ∧ r.id = e.id ∧ r.metadata = e.metadata) := by
  induction entries with
  | nil =>
    intro res h r
    simp only [scanEntries] at h
    cases h
    simp
  | cons e rest ih =>
    intro res h r
    simp only [scanEntries] at h
    by_cases hf : filterSkips filt e.metadata = true
    · rw [if_pos hf] at h
      rw [ih res h r]
      constructor
      · rintro ⟨x, hx, hc⟩
        exact ⟨x, List.mem_cons_of_mem e hx, hc⟩
      · rintro ⟨x, hx, hc⟩
        rcases List.mem_cons.mp hx with rfl | hx
        · rw [hf] at hc
          exact absurd hc.1 (by simp)
        · exact ⟨x, hx, hc⟩
    · have hf' : filterSkips filt e.metadata = false := by simpa using hf
      rw [if_neg hf] at h
      cases hcos : cosineSimilarity q e.vector with
      | error err =>
        rw [hcos] at h
        simp at h
      | ok sim =>
        rw [hcos] at h
        cases hrest : scanEntries q minSim filt rest with
        | error err =>
          rw [hrest] at h
          simp at h
        | ok results =>
          rw [hrest] at h
          have hres : (if sim ≥ minSim then
              (⟨e.id, sim, e.metadata⟩ : SearchResult M) :: results else results) = res := by
            simpa using h
          rw [← hres]
          by_cases hge : sim ≥ minSim
          · rw [if_pos hge, List.mem_cons, ih results hrest r]
            constructor
            · rintro (rfl | ⟨x, hx, hc⟩)
              · exact ⟨e, List.mem_cons_self e rest, hf', (by simpa using hcos),
                  (by simpa using hge), rfl, rfl⟩
              · exact ⟨x, List.mem_cons_of_mem e hx, hc⟩
            · rintro ⟨x, hx, hc⟩
              rcases List.mem_cons.mp hx with rfl | hx
              · left
                obtain ⟨-, hcs, -, hid, hmd⟩ := hc
                rw [hcos] at hcs
                have hsim : r.similarity = sim := (Except.ok.inj hcs).symm
                cases r
                simp_all
              · exact Or.inr ⟨x, hx, hc⟩
          · rw [if_neg hge, ih results hrest r]
            constructor
            · rintro ⟨x, hx, hc⟩
              exact ⟨x, List.mem_cons_of_mem e hx, hc⟩
            · rintro ⟨x, hx, hc⟩
              rcases List.mem_cons.mp hx with rfl | hx
              · obtain ⟨-, hcs, hms, -, -⟩ := hc
                rw [hcos] at hcs
                have hsim : r.similarity = sim := (Except.ok.inj hcs).symm
                exact absurd (hsim ▸ hms) hge
              · exact ⟨x, hx, hc⟩

theorem sortBySimilarityDesc_perm (l : List (SearchResult M)) :
    List.Perm (sortBySimilarityDesc l) l :=
  List.mergeSort_perm l _

theorem sortBySimilarityDesc_sorted (l : List (SearchResult M)) :
    (sortBySimilarityDesc l).Pairwise fun a b => b.similarity ≤ a.similarity := by
  have htrans : ∀ a b c : SearchResult M,
      decide (b.similarity ≤ a.similarity) → decide (c.similarity ≤ b.similarity) →
        decide (c.similarity ≤ a.similarity) := by
    intro a b c hab hbc
    simp only [decide_eq_true_eq] at *
    exact le_trans hbc hab
  have htotal : ∀ a b : SearchResult M,
      (decide (b.similarity ≤ a.similarity) || decide (a.similarity ≤ b.similarity)) = true := by
    intro a b
    simp only [Bool.or_eq_true, decide_eq_true_eq]
    exact le_total b.similarity a.similarity
  have h := List.sorted_mergeSort htrans htotal l
  exact h.imp (by intro a b hab; simpa using hab)

/-- Claim C1: for every query vector, stored set and options, a successful
search returns a sequence ordered by non-increasing similarity, of length
at most `limit` (defaulting to the config value, itself defaulting to 10),
containing only entries that pass the caller's filter with cosine
similarity at least `minSimilarity` (defaulting to the config value,
itself defaulting to 0.7), and containing every qualifying entry whenever
the limit is not saturated. -/
theorem vectorStore_search_contract (s : VectorStore M) (q : List ℝ)
    (opts : SearchOptions M) (res : List (SearchResult M))
    (h : s.search q opts = .ok res) :
    res.Pairwise (fun a b => b.similarity ≤ a.similarity)
    ∧ res.length ≤ opts.limit.getD s.config.defaultLimit
    ∧ (∀ r ∈ res, ∃ e ∈ s.exportEntries,
        filterSkips opts.filter e.metadata = false ∧
        cosineSimilarity q e.vector = .ok r.similarity ∧
        ((opts.minSimilarity.getD s.config.minSimilarity : ℚ) : ℝ) ≤ r.similarity ∧
        r.id = e.id ∧ r.metadata = e.metadata)
    ∧ (res.length < opts.limit.getD s.config.defaultLimit →
        ∀ e ∈ s.exportEntries, ∀ sim : ℝ,
          filterSkips opts.filter e.metadata = false →
          cosineSimilarity q e.vector = .ok sim →
          ((opts.minSimilarity.getD s.config.minSimilarity : ℚ) : ℝ) ≤ sim →
          ∃ r ∈ res, r.id = e.id ∧ r.similarity = sim ∧ r.metadata = e.metadata)
    ∧ (mkVectorStoreConfig ⟨none, none, none⟩).minSimilarity = 7/10
    ∧ (mkVectorStoreConfig ⟨none, none, none⟩).defaultLimit = 10 := by
  unfold VectorStore.search at h
  simp only [] at h
  cases hscan : scanEntries q ((opts.minSimilarity.getD s.config.minSimilarity : ℚ) : ℝ)
      opts.filter (s.vectors.map Prod.snd) with
  | error err =>
    rw [hscan] at h
    simp at h
  | ok results =>
    rw [hscan] at h
    have hres : (sortBySimilarityDesc results).take (opts.limit.getD s.config.defaultLimit)
        = res := by simpa using h
    have hmem := scanEntries_mem q _ opts.filter (s.vectors.map Prod.snd) results hscan
    refine ⟨?_, ?_, ?_, ?_, rfl, rfl⟩
    · rw [← hres]
      exact (sortBySimilarityDesc_sorted results).sublist (List.take_sublist _ _)
    · rw [← hres]
      exact List.length_take_le _ _
    · intro r hr
      rw [← hres] at hr
      have hr2 : r ∈ results :=
        (sortBySimilarityDesc_perm results).mem_iff.mp ((List.take_sublist _ _).mem hr)
      exact (hmem r).mp hr2
    · intro hlt e he sim hf hcos hms
      have hlen : (sortBySimilarityDesc results).length
          ≤ opts.limit.getD s.config.defaultLimit := by
        by_contra hgt
        push_neg at hgt
        have : res.length = opts.limit.getD s.config.defaultLimit := by
          rw [← hres, List.length_take]
          omega
        omega
      have htk : (sortBySimilarityDesc results).take (opts.limit.getD s.config.defaultLimit)
          = sortBySimilarityDesc results := List.take_of_length_le hlen
      have hrl : ∀ x : SearchResult M, x ∈ results → x ∈ res := by
        intro x hr
        rw [← hres, htk]
        exact (sortBySimilarityDesc_perm results).mem_iff.mpr hr
      have : (⟨e.id, sim, e.metadata⟩ : SearchResult M) ∈ results :=
        (hmem ⟨e.id, sim, e.metadata⟩).mpr ⟨e, he, hf, hcos, hms, rfl, rfl⟩
      exact ⟨⟨e.id, sim, e.metadata⟩, hrl _ this, rfl, rfl, rfl⟩

theorem cosineSimilarity_single_one :
    cosineSimilarity [(1 : ℝ)] [(1 : ℝ)] = .ok 1 := by
  rw [(cosineSimilarity_contract [(1 : ℝ)] [(1 : ℝ)]).2.2.2 rfl
    (by rw [magnitude_single_one]; norm_num) (by rw [magnitude_single_one]; norm_num)]
  rw [magnitude_single_one]
  simp [dotProduct]

theorem ratCast_seven_tenths_le_one : (((7 : ℚ)/10 : ℚ) : ℝ) ≤ 1 := by
  norm_num

theorem vectorStore_search_contract_witness :
    VectorStore.search (M := Unit)
        ⟨mkVectorStoreConfig ⟨none, none, none⟩, [("a", ⟨"a", [1], none⟩)]⟩
        [1] ⟨none, none, none, none⟩
      = .ok [⟨"a", 1, none⟩]
    ∧ ([⟨"a", 1, none⟩] : List (SearchResult Unit)).Pairwise
        (fun a b => b.similarity ≤ a.similarity) := by
  have hge : ((((mkVectorStoreConfig ⟨none, none, none⟩).minSimilarity : ℚ)) : ℝ) ≤ 1 := by
    norm_num [mkVectorStoreConfig]
  have hscan : scanEntries (M := Unit) [1]
      ((((mkVectorStoreConfig ⟨none, none, none⟩).minSimilarity : ℚ)) : ℝ) none
      [⟨"a", [1], none⟩] = .ok [⟨"a", 1, none⟩] := by
    simp [scanEntries, filterSkips, cosineSimilarity_single_one, ge_iff_le, hge]
  have heval : VectorStore.search (M := Unit)
      ⟨mkVectorStoreConfig ⟨none, none, none⟩, [("a", ⟨"a", [1], none⟩)]⟩
      [1] ⟨none, none, none, none⟩ = .ok [⟨"a", 1, none⟩] := by
    unfold VectorStore.search
    simp only [Option.getD_none, List.map_cons, List.map_nil]
    rw [hscan]
    simp [sortBySimilarityDesc, List.mergeSort, mkVectorStoreConfig]
  exact ⟨heval, (vectorStore_search_contract _ _ _ _ heval).1⟩

/-! ### Claim C7: export/import round trip -/

theorem mapSet_forall (P : String × β → Prop) (m : List (String × β)) (k : String)
    (v : β) (hall : ∀ p ∈ m, P p) (hkv : P (k, v)) :
    ∀ p ∈ mapSet m k v, P p := by
  unfold mapSet
  split
  · intro p hp
    simp only [List.mem_map] at hp
    obtain ⟨q, hq, hqp⟩ := hp
    by_cases hqk : q.1 = k
    · rw [← hqp, if_pos (by simpa using hqk)]
      exact hkv
    · rw [← hqp, if_neg (by simpa using hqk)]
      exact hall q hq
  · intro p hp
    rcases List.mem_append.mp hp with hp | hp
    · exact hall p hp
    · rw [List.mem_singleton.mp hp]
      exact hkv

theorem mapDelete_forall (P : String × β → Prop) (m : List (String × β)) (k : String)
    (hall : ∀ p ∈ m, P p) : ∀ p ∈ mapDelete m k, P p := by
  intro p hp
  exact hall p (List.mem_of_mem_filter hp)

theorem mapSet_of_not_has (m : List (String × β)) (k : String) (v : β)
    (h : ¬ mapHasKey m k = true) : mapSet m k v = m ++ [(k, v)] := by
  unfold mapSet
  rw [if_neg (show ¬ (m.any fun p => p.1 == k) = true from h)]

theorem storeInv_addBatch (es : List (String × List ℝ × Option M)) :
    ∀ s : VectorStore M, mapWF s.vectors → (∀ p ∈ s.vectors, p.1 = p.2.id) →
      mapWF (s.addBatch es).vectors ∧ ∀ p ∈ (s.addBatch es).vectors, p.1 = p.2.id := by
  unfold VectorStore.addBatch
  induction es with
  | nil => exact fun s h1 h2 => ⟨h1, h2⟩
  | cons e rest ih =>
    intro s h1 h2
    exact ih _ (mapWF_set _ _ _ h1) (mapSet_forall _ _ _ _ h2 rfl)

theorem storeInv_importEntries (es : List (VectorEntry M)) :
    ∀ s : VectorStore M, mapWF s.vectors → (∀ p ∈ s.vectors, p.1 = p.2.id) →
      mapWF (s.importEntries es).vectors
      ∧ ∀ p ∈ (s.importEntries es).vectors, p.1 = p.2.id := by
  unfold VectorStore.importEntries
  induction es with
  | nil => exact fun s h1 h2 => ⟨h1, h2⟩
  | cons e rest ih =>
    intro s h1 h2
    exact ih _ (mapWF_set _ _ _ h1) (mapSet_forall _ _ _ _ h2 rfl)

theorem storeInv_applyOp (s : VectorStore M) (op : StoreOp M)
    (h1 : mapWF s.vectors) (h2 : ∀ p ∈ s.vectors, p.1 = p.2.id) :
    mapWF (s.applyOp op).vectors ∧ ∀ p ∈ (s.applyOp op).vectors, p.1 = p.2.id := by
  cases op with
  | add id v md =>
    exact ⟨mapWF_set _ _ _ h1, mapSet_forall _ _ _ _ h2 rfl⟩
  | addBatch es =>
    exact storeInv_addBatch es s h1 h2
  | remove id =>
    exact ⟨mapWF_delete _ _ h1, mapDelete_forall _ _ _ h2⟩
  | clear =>
    exact ⟨mapWF_nil, by simp [VectorStore.applyOp, VectorStore.clear]⟩
  | importOp es =>
    exact storeInv_importEntries es s h1 h2

theorem storeInv_applyOps (cfg : VectorStoreConfig) (ops : List (StoreOp M)) :
    mapWF (VectorStore.applyOps cfg ops).vectors
    ∧ ∀ p ∈ (VectorStore.applyOps cfg ops).vectors, p.1 = p.2.id := by
  unfold VectorStore.applyOps
  have hbase : mapWF (VectorStore.empty cfg : VectorStore M).vectors
      ∧ ∀ p ∈ (VectorStore.empty cfg : VectorStore M).vectors, p.1 = p.2.id := by
    exact ⟨mapWF_nil, by simp [VectorStore.empty]⟩
  revert hbase
  generalize VectorStore.empty cfg = s
  induction ops generalizing s with
  | nil => exact fun h => h
  | cons op rest ih =>
    intro h
    exact ih _ (storeInv_applyOp s op h.1 h.2)

theorem importEntries_fresh (t : VectorStore M) (es : List (VectorEntry M))
    (hdisj : ∀ e ∈ es, ¬ mapHasKey t.vectors e.id = true)
    (hnodup : (es.map VectorEntry.id).Nodup) :
    (t.importEntries es).vectors = t.vectors ++ es.map fun e => (e.id, e) := by
  induction es generalizing t with
  | nil => simp [VectorStore.importEntries]
  | cons e rest ih =>
    have hstep : mapSet t.vectors e.id e = t.vectors ++ [(e.id, e)] :=
      mapSet_of_not_has _ _ _ (hdisj e (List.mem_cons_self e rest))
    have hn := hnodup
    rw [List.map_cons] at hn
    obtain ⟨hnotin, hn2⟩ := List.nodup_cons.mp hn
    have hd2 : ∀ x ∈ rest, ¬ mapHasKey (t.vectors ++ [(e.id, e)]) x.id = true := by
      intro x hx
      have hx1 : ¬ mapHasKey t.vectors x.id = true := hdisj x (List.mem_cons_of_mem e hx)
      have hx2 : x.id ≠ e.id := by
        intro hxe
        exact hnotin (hxe ▸ List.mem_map_of_mem VectorEntry.id hx)
      simp only [mapHasKey, List.any_append, Bool.or_eq_true]
      rintro (h | h)
      · exact hx1 h
      · simp only [List.any_cons, List.any_nil, Bool.or_eq_true, beq_iff_eq] at h
        rcases h with h | h
        · exact hx2 h.symm
        · cases h
    calc (t.importEntries (e :: rest)).vectors
        = (VectorStore.importEntries ⟨t.config, mapSet t.vectors e.id e⟩ rest).vectors := rfl
      _ = (VectorStore.importEntries ⟨t.config, t.vectors ++ [(e.id, e)]⟩ rest).vectors := by
          rw [hstep]
      _ = (t.vectors ++ [(e.id, e)]) ++ rest.map fun x => (x.id, x) := ih _ hd2 hn2
      _ = t.vectors ++ (e :: rest).map fun x => (x.id, x) := by simp

/-- Claim C7: for any store built by any sequence of
add/addBatch/remove/clear/import operations, importing `export()` into a
fresh store reproduces the same `size()` and the same `get(id)` for every
id. -/
theorem vectorStore_export_import_roundtrip (cfgA cfgB : VectorStoreConfig)
    (ops : List (StoreOp M)) :
    ((VectorStore.empty cfgB).importEntries
        (VectorStore.applyOps cfgA ops).exportEntries).size
      = (VectorStore.applyOps cfgA ops).size
    ∧ ∀ id, ((VectorStore.empty cfgB).importEntries
        (VectorStore.applyOps cfgA ops).exportEntries).get id
      = (VectorStore.applyOps cfgA ops).get id := by
  obtain ⟨h1, h2⟩ := storeInv_applyOps cfgA ops
  have hids : ((VectorStore.applyOps cfgA ops).exportEntries.map VectorEntry.id)
      = (VectorStore.applyOps cfgA ops).vectors.map Prod.fst := by
    unfold VectorStore.exportEntries
    rw [List.map_map]
    exact List.map_congr_left fun p hp => (h2 p hp).symm
  have hvec : ((VectorStore.empty cfgB).importEntries
      (VectorStore.applyOps cfgA ops).exportEntries).vectors
      = (VectorStore.applyOps cfgA ops).vectors := by
    rw [importEntries_fresh]
    · have : ((VectorStore.applyOps cfgA ops).exportEntries.map fun e => (e.id, e))
          = (VectorStore.applyOps cfgA ops).vectors := by
        unfold VectorStore.exportEntries
        rw [List.map_map]
        have : ∀ p ∈ (VectorStore.applyOps cfgA ops).vectors,
            ((fun e => (e.id, e)) ∘ Prod.snd) p = p := by
          intro p hp
          have := h2 p hp
          cases p
          simp_all
        calc List.map ((fun e => (e.id, e)) ∘ Prod.snd) (VectorStore.applyOps cfgA ops).vectors
            = List.map id (VectorStore.applyOps cfgA ops).vectors :=
              List.map_congr_left this
          _ = _ := List.map_id _
      rw [this]
      simp [VectorStore.empty]
    · intro e he
      simp [VectorStore.empty, mapHasKey]
    · rw [hids]
      exact h1
  constructor
  · unfold VectorStore.size
    rw [hvec]
  · intro id
    unfold VectorStore.get
    rw [hvec]

/-! ### Claim C6: the constructor never fails -/

/-- Claim C6 counterexample: constructing with `autoSave: true` and no
`storePath` does not fail with a configuration error — the constructor
performs no validation and the store path falls back to its default. -/
theorem mkEnhancedConfig_autoSave_no_path_succeeds :
    mkEnhancedConfig
        ⟨none, none, none, none, some true, none, none, none, none, none, none, none, none⟩
      = .ok { model := "Xenova/all-MiniLM-L6-v2", minSimilarity := 7/10,
              cacheDir := ".cache/transformers", progressLogging := false,
              autoSave := true, storePath := ".semantic-store.json",
              autoChunk := false, maxChunkTokens := 500, chunkOverlap := 50,
              deduplicateExact := true, deduplicateSimilarity := 0,
              temporalBoost := false, verbose := false }
    ∧ ∀ err : ConfigError,
        mkEnhancedConfig
            ⟨none, none, none, none, some true, none, none, none, none, none, none, none, none⟩
          ≠ .error err := by
  refine ⟨rfl, ?_⟩
  intro err h
  rw [mkEnhancedConfig] at h
  cases h

/-- Claim C6 amended: every construction succeeds; `autoSave` defaults to
`false` and `storePath` to `.semantic-store.json`, so an enabled autoSave
always has a path to write to and no configuration error is ever raised. -/
theorem mkEnhancedConfig_total (c : EnhancedConfigInput) :
    ∃ cfg, mkEnhancedConfig c = .ok cfg
      ∧ cfg.autoSave = c.autoSave.getD false
      ∧ cfg.storePath = c.storePath.getD ".semantic-store.json" :=
  ⟨_, rfl, rfl, rfl⟩

/-! ### Claim C10: timestamp falsiness on insert -/

/-- Claim C10: when `temporalBoost` is enabled and a document survives both
duplicate checks without chunking, the stored metadata's timestamp is the
stamped one: a timestamp of `0` is treated like an absent one (JavaScript
falsiness) and overwritten with the current time, while any nonzero
timestamp is kept unchanged. -/
theorem addDocument_timestamp_falsiness (cfg : EnhancedConfig)
    (embed : String → List ℝ) (now : ℚ) (s : EnhancedState)
    (doc : Document DocMetadata)
    (hboost : cfg.temporalBoost = true)
    (hexact : checkExactDuplicate cfg s doc.text = none)
    (hfuzzy : checkFuzzyDuplicate cfg embed s doc.text = .ok none)
    (hchunk : ¬ (cfg.autoChunk ∧ (estimateTokens doc.text : ℚ) > cfg.maxChunkTokens)) :
    (∃ s1, Enhanced.addDocument cfg embed now s doc = .ok (s1, true)
      ∧ mapGet s1.base.vectorStore.vectors doc.id
          = some ⟨doc.id, embed doc.text,
                  some (stampTimestamp cfg now (spreadMeta doc.metadata))⟩)
    ∧ ((spreadMeta doc.metadata).timestamp = none
        ∨ (spreadMeta doc.metadata).timestamp = some 0 →
        (stampTimestamp cfg now (spreadMeta doc.metadata)).timestamp = some now)
    ∧ (∀ t : ℚ, t ≠ 0 → (spreadMeta doc.metadata).timestamp = some t →
        (stampTimestamp cfg now (spreadMeta doc.metadata)).timestamp = some t) := by
  refine ⟨?_, ?_, ?_⟩
  · refine ⟨⟨SemanticSearch.addDocument embed s.base
        ⟨doc.id, doc.text, some (stampTimestamp cfg now (spreadMeta doc.metadata))⟩,
      mapSet s.textHashes (normalizeText doc.text) doc.id⟩, ?_, ?_⟩
    · unfold Enhanced.addDocument
      rw [hexact, if_neg (show ¬ truthyHit none = true by decide), hfuzzy]
      simp only []
      rw [if_neg hchunk]
    · exact mapGet_set_self s.base.vectorStore.vectors doc.id
        ⟨doc.id, embed doc.text, some (stampTimestamp cfg now (spreadMeta doc.metadata))⟩
  · intro hts
    unfold stampTimestamp
    rw [if_pos ⟨hboost, hts⟩]
  · intro t ht hts
    unfold stampTimestamp
    rw [if_neg, hts]
    rintro ⟨-, h | h⟩
    · rw [hts] at h
      cases h
    · rw [hts] at h
      exact ht (by injection h)

theorem addDocument_timestamp_falsiness_witness :
    boostEnhancedConfig.temporalBoost = true
    ∧ checkExactDuplicate boostEnhancedConfig
        (EnhancedState.empty (mkVectorStoreConfig ⟨none, none, none⟩)) "hi" = none
    ∧ checkFuzzyDuplicate boostEnhancedConfig (fun _ => [1])
        (EnhancedState.empty (mkVectorStoreConfig ⟨none, none, none⟩)) "hi" = .ok none
    ∧ (stampTimestamp boostEnhancedConfig 5
        (spreadMeta (some ⟨some 0, none, none, []⟩))).timestamp = some 5 := by
  have h := addDocument_timestamp_falsiness boostEnhancedConfig (fun _ => [1]) 5
    (EnhancedState.empty (mkVectorStoreConfig ⟨none, none, none⟩))
    ⟨"d", "hi", some ⟨some 0, none, none, []⟩⟩ rfl rfl rfl
    (by simp [boostEnhancedConfig, defaultEnhancedConfig])
  exact ⟨rfl, rfl, rfl, h.2.1 (Or.inr rfl)⟩

/-! ### Claim C3: deduplication ordering and no-op semantics -/

/-- Claim C3 counterexample: an exact-duplicate hit does not always make
the call a no-op.  With deduplication enabled and the normalized-text
index mapping the incoming text's canonical form to the empty-string id
(reachable by loading a document whose id is `""`), `checkExactDuplicate`
returns a hit, yet the gate `if (exactDup)` is falsy on the empty string,
so `addDocument` proceeds: the new document is stored, the index entry is
overwritten with the new id, and the save is reached. -/
theorem addDocument_dedup_empty_id_counterexample :
    checkExactDuplicate defaultEnhancedConfig
        (Enhanced.load (EnhancedState.empty (mkVectorStoreConfig ⟨none, none, none⟩))
          [⟨"", "X", [], none⟩]) "X" = some ""
    ∧ (Enhanced.addDocument defaultEnhancedConfig (fun t => []) 0
          (Enhanced.load (EnhancedState.empty (mkVectorStoreConfig ⟨none, none, none⟩))
            [⟨"", "X", [], none⟩]) ⟨"d", "X", none⟩).map
        (fun r => (mapGet r.1.base.documents "d",
                   mapGet r.1.textHashes (normalizeText "X"), r.2))
      = .ok (some "X", some "d", true) :=
  ⟨rfl, rfl⟩

/-- Claim C3 (amended): on every `addDocument` call the exact-duplicate
lookup is consulted first, and a hit whose stored id is non-empty — the
only truthy case of the JavaScript gate `if (exactDup)` — makes the call a
complete no-op (state unchanged, no save); a hit carrying the empty-string
id is falsy and falls through exactly like a miss, proceeding with the
(unchunked) add and the save.  Only when the exact gate does not skip is
the fuzzy check consulted, which is disabled exactly at threshold `0` and
otherwise runs a base-layer search with `limit: 1` at the configured
threshold; a fuzzy hit is likewise a complete no-op. -/
theorem addDocument_dedup_contract_amended (cfg : EnhancedConfig)
    (embed : String → List ℝ) (now : ℚ) (s : EnhancedState)
    (doc : Document DocMetadata) :
    (∀ d, checkExactDuplicate cfg s doc.text = some d → d ≠ "" →
      Enhanced.addDocument cfg embed now s doc = .ok (s, false))
    ∧ (cfg.deduplicateSimilarity = 0 →
        checkFuzzyDuplicate cfg embed s doc.text = .ok none)
    ∧ (0 < cfg.deduplicateSimilarity →
        checkFuzzyDuplicate cfg embed s doc.text
          = match SemanticSearch.search embed s.base doc.text
              ⟨some 1, some cfg.deduplicateSimilarity, none, none⟩ with
            | .error err => .error err
            | .ok results => .ok (results.head?.map fun r => (r.id, r.similarity)))
    ∧ (∀ hit, truthyHit (checkExactDuplicate cfg s doc.text) = false →
        checkFuzzyDuplicate cfg embed s doc.text = .ok (some hit) →
        Enhanced.addDocument cfg embed now s doc = .ok (s, false))
    ∧ (checkExactDuplicate cfg s doc.text = some "" →
        checkFuzzyDuplicate cfg embed s doc.text = .ok none →
        ¬ (cfg.autoChunk ∧ (estimateTokens doc.text : ℚ) > cfg.maxChunkTokens) →
        Enhanced.addDocument cfg embed now s doc
          = .ok (⟨SemanticSearch.addDocument embed s.base
                    ⟨doc.id, doc.text,
                     some (stampTimestamp cfg now (spreadMeta doc.metadata))⟩,
                  mapSet s.textHashes (normalizeText doc.text) doc.id⟩, true)) := by
  refine ⟨?_, ?_, ?_, ?_, ?_⟩
  · intro d h hne
    unfold Enhanced.addDocument
    rw [h, if_pos (show truthyHit (some d) = true from bne_iff_ne.mpr hne)]
  · intro h
    unfold checkFuzzyDuplicate
    rw [if_pos h]
  · intro h
    unfold checkFuzzyDuplicate
    rw [if_neg (ne_of_gt h)]
  · intro hit hfalse hf
    unfold Enhanced.addDocument
    rw [hfalse, if_neg (show ¬ false = true by decide), hf]
  · intro he hf hnc
    unfold Enhanced.addDocument
    rw [he, if_neg (show ¬ truthyHit (some "") = true by decide), hf]
    simp only []
    rw [if_neg hnc]

theorem addDocument_dedup_contract_amended_witness :
    (checkExactDuplicate defaultEnhancedConfig
        ⟨⟨⟨mkVectorStoreConfig ⟨none, none, none⟩, []⟩, []⟩, [("hello world", "a")]⟩
        "Hello  World" = some "a"
      ∧ Enhanced.addDocument defaultEnhancedConfig (fun _ => [1]) 0
          ⟨⟨⟨mkVectorStoreConfig ⟨none, none, none⟩, []⟩, []⟩, [("hello world", "a")]⟩
          ⟨"b", "Hello  World", none⟩ = .ok
            (⟨⟨⟨mkVectorStoreConfig ⟨none, none, none⟩, []⟩, []⟩, [("hello world", "a")]⟩,
             false))
    ∧ (defaultEnhancedConfig.deduplicateSimilarity = 0
      ∧ checkFuzzyDuplicate defaultEnhancedConfig (fun _ => [1])
          ⟨⟨⟨mkVectorStoreConfig ⟨none, none, none⟩, []⟩, []⟩, []⟩ "hey" = .ok none)
    ∧ (0 < fuzzyEnhancedConfig.deduplicateSimilarity
      ∧ checkExactDuplicate fuzzyEnhancedConfig
          ⟨⟨⟨mkVectorStoreConfig ⟨none, none, none⟩, [("d", ⟨"d", [1], none⟩)]⟩,
            [("d", "x")]⟩, [("x", "d")]⟩ "hey" = none
      ∧ checkFuzzyDuplicate fuzzyEnhancedConfig (fun _ => [1])
          ⟨⟨⟨mkVectorStoreConfig ⟨none, none, none⟩, [("d", ⟨"d", [1], none⟩)]⟩,
            [("d", "x")]⟩, [("x", "d")]⟩ "hey" = .ok (some ("d", 1))
      ∧ Enhanced.addDocument fuzzyEnhancedConfig (fun _ => [1]) 0
          ⟨⟨⟨mkVectorStoreConfig ⟨none, none, none⟩, [("d", ⟨"d", [1], none⟩)]⟩,
            [("d", "x")]⟩, [("x", "d")]⟩ ⟨"e", "hey", none⟩ = .ok
            (⟨⟨⟨mkVectorStoreConfig ⟨none, none, none⟩, [("d", ⟨"d", [1], none⟩)]⟩,
              [("d", "x")]⟩, [("x", "d")]⟩, false)) := by
  have hexact1 : checkExactDuplicate defaultEnhancedConfig
      ⟨⟨⟨mkVectorStoreConfig ⟨none, none, none⟩, []⟩, []⟩, [("hello world", "a")]⟩
      "Hello  World" = some "a" := by decide
  have hexact2 : checkExactDuplicate fuzzyEnhancedConfig
      ⟨⟨⟨mkVectorStoreConfig ⟨none, none, none⟩, [("d", ⟨"d", [1], none⟩)]⟩,
        [("d", "x")]⟩, [("x", "d")]⟩ "hey" = none := by
    decide
  have hge : ((2 : ℝ)⁻¹) ≤ 1 := by norm_num
  have hscan : scanEntries (M := DocMetadata) [1] (((1 : ℚ)/2 : ℚ) : ℝ) none
      [⟨"d", [1], none⟩] = .ok [⟨"d", 1, none⟩] := by
    simp [scanEntries, filterSkips, cosineSimilarity_single_one, ge_iff_le, hge]
  have hsearch : SemanticSearch.search (M := DocMetadata) (fun _ => [1])
      ⟨⟨mkVectorStoreConfig ⟨none, none, none⟩, [("d", ⟨"d", [1], none⟩)]⟩, [("d", "x")]⟩
      "hey" ⟨some 1, some ((1 : ℚ)/2), none, none⟩
      = .ok [⟨"d", 1, none, "x"⟩] := by
    unfold SemanticSearch.search VectorStore.search
    simp only [Option.getD_some, List.map_cons, List.map_nil]
    rw [hscan]
    simp only [sortBySimilarityDesc, List.mergeSort, List.take]
    rfl
  have hfuzzy : checkFuzzyDuplicate fuzzyEnhancedConfig (fun _ => [1])
      ⟨⟨⟨mkVectorStoreConfig ⟨none, none, none⟩, [("d", ⟨"d", [1], none⟩)]⟩,
        [("d", "x")]⟩, [("x", "d")]⟩ "hey" = .ok (some ("d", 1)) := by
    unfold checkFuzzyDuplicate
    rw [if_neg (by norm_num [fuzzyEnhancedConfig, defaultEnhancedConfig])]
    have : fuzzyEnhancedConfig.deduplicateSimilarity = (1 : ℚ)/2 := by
      norm_num [fuzzyEnhancedConfig, defaultEnhancedConfig]
    rw [this, hsearch]
    rfl
  have hfalse2 : truthyHit (checkExactDuplicate fuzzyEnhancedConfig
      ⟨⟨⟨mkVectorStoreConfig ⟨none, none, none⟩, [("d", ⟨"d", [1], none⟩)]⟩,
        [("d", "x")]⟩, [("x", "d")]⟩ "hey") = false := by
    rw [hexact2]
    rfl
  refine ⟨⟨hexact1, (addDocument_dedup_contract_amended _ _ _ _ _).1 "a" hexact1
      (by decide)⟩,
    ⟨rfl, (addDocument_dedup_contract_amended defaultEnhancedConfig (fun _ => [1]) 0
      ⟨⟨⟨mkVectorStoreConfig ⟨none, none, none⟩, []⟩, []⟩, []⟩
      ⟨"e", "hey", none⟩).2.1 rfl⟩,
    ⟨by norm_num [fuzzyEnhancedConfig, defaultEnhancedConfig], hexact2, hfuzzy,
      (addDocument_dedup_contract_amended _ _ _ _ _).2.2.2.1 ("d", 1) hfalse2 hfuzzy⟩⟩

/-! ### Claim C5: temporal boosting -/

theorem sortTextResultsDesc_perm (l : List (TextSearchResult M)) :
    List.Perm (sortTextResultsDesc l) l :=
  List.mergeSort_perm l _

theorem sortTextResultsDesc_sorted (l : List (TextSearchResult M)) :
    (sortTextResultsDesc l).Pairwise fun a b => b.similarity ≤ a.similarity := by
  have htrans : ∀ a b c : TextSearchResult M,
      decide (b.similarity ≤ a.similarity) → decide (c.similarity ≤ b.similarity) →
        decide (c.similarity ≤ a.similarity) := by
    intro a b c hab hbc
    simp only [decide_eq_true_eq] at *
    exact le_trans hbc hab
  have htotal : ∀ a b : TextSearchResult M,
      (decide (b.similarity ≤ a.similarity) || decide (a.similarity ≤ b.similarity)) = true := by
    intro a b
    simp only [Bool.or_eq_true, decide_eq_true_eq]
    exact le_total b.similarity a.similarity
  have h := List.sorted_mergeSort htrans htotal l
  exact h.imp (by intro a b hab; simpa using hab)

/-- Claim C5 amended: when boosting applies, each result's score becomes
`similarity * (0.7 + 0.3 * (1 / (1 + ln(1 + ageDays))))` with
`ageDays = (now - (metadata.timestamp ?? now)) / 86,400,000`, and the
results are re-sorted descending by the boosted score — but the base
search already truncated to `limit` before boosting, and the re-slice
after boosting (applied only when a nonzero per-call limit was given) is a
no-op: the boosted output is a permutation of the boosted base results, so
boosting can reorder but never change which items survive the limit. -/
theorem enhanced_search_boost_amended (cfg : EnhancedConfig)
    (embed : String → List ℝ) (now : ℚ) (s : EnhancedState) (query : String)
    (opts : SearchOptions DocMetadata)
    (base res : List (TextSearchResult DocMetadata))
    (hboost : opts.temporalBoost.getD cfg.temporalBoost = true)
    (hbase : SemanticSearch.search embed s.base query opts = .ok base)
    (hres : Enhanced.search cfg embed now s query opts = .ok res) :
    res.Perm (base.map (boostResult now))
    ∧ res.Pairwise (fun a b => b.similarity ≤ a.similarity)
    ∧ (∀ r ∈ res, ∃ b ∈ base, r = boostResult now b
        ∧ r.similarity = b.similarity * (0.7 + 0.3 * (1 / (1 + Real.log (1 +
            ((now : ℝ) - (((b.metadata.bind fun m => m.timestamp).getD now : ℚ) : ℝ))
              / (1000 * 60 * 60 * 24)))))) := by
  have hlen : base.length ≤ opts.limit.getD s.base.vectorStore.config.defaultLimit := by
    unfold SemanticSearch.search at hbase
    cases hvs : s.base.vectorStore.search (embed query) opts with
    | error err => rw [hvs] at hbase; simp at hbase
    | ok results =>
      rw [hvs] at hbase
      have hb : (results.map fun r => TextSearchResult.mk r.id r.similarity r.metadata
          ((mapGet s.base.documents r.id).getD "")) = base := Except.ok.inj hbase
      unfold VectorStore.search at hvs
      simp only [] at hvs
      cases hscan : scanEntries (embed query)
          ((opts.minSimilarity.getD s.base.vectorStore.config.minSimilarity : ℚ) : ℝ)
          opts.filter (s.base.vectorStore.vectors.map Prod.snd) with
      | error err => rw [hscan] at hvs; simp at hvs
      | ok scanned =>
        rw [hscan] at hvs
        have : (sortBySimilarityDesc scanned).take
            (opts.limit.getD s.base.vectorStore.config.defaultLimit) = results := by
          simpa using hvs
        rw [← hb, List.length_map, ← this]
        exact List.length_take_le _ _
  have hres2 : (if opts.temporalBoost.getD cfg.temporalBoost then
      Except.ok (ε := VectorError) (match opts.limit with
        | some l => if l ≠ 0 then
            (sortTextResultsDesc (base.map (boostResult now))).take l
          else sortTextResultsDesc (base.map (boostResult now))
        | none => sortTextResultsDesc (base.map (boostResult now)))
    else Except.ok base) = .ok res := by
    rw [← hres]
    unfold Enhanced.search
    rw [hbase]
  rw [if_pos hboost] at hres2
  have hres3 : (match opts.limit with
      | some l => if l ≠ 0 then
          (sortTextResultsDesc (base.map (boostResult now))).take l
        else sortTextResultsDesc (base.map (boostResult now))
      | none => sortTextResultsDesc (base.map (boostResult now))) = res :=
    Except.ok.inj hres2
  have hsortlen : (sortTextResultsDesc (base.map (boostResult now))).length = base.length := by
    rw [(sortTextResultsDesc_perm _).length_eq, List.length_map]
  have hall : res = sortTextResultsDesc (base.map (boostResult now)) := by
    rw [← hres3]
    cases hlim : opts.limit with
    | none => rfl
    | some l =>
      show (if l ≠ 0 then (sortTextResultsDesc (base.map (boostResult now))).take l
            else sortTextResultsDesc (base.map (boostResult now)))
          = sortTextResultsDesc (base.map (boostResult now))
      by_cases hl : l ≠ 0
      · rw [if_pos hl]
        apply List.take_of_length_le
        rw [hsortlen]
        rw [hlim] at hlen
        exact hlen
      · rw [if_neg hl]
  refine ⟨?_, ?_, ?_⟩
  · rw [hall]
    exact sortTextResultsDesc_perm _
  · rw [hall]
    exact sortTextResultsDesc_sorted _
  · intro r hr
    rw [hall] at hr
    have : r ∈ base.map (boostResult now) := (sortTextResultsDesc_perm _).mem_iff.mp hr
    obtain ⟨b, hb, hbr⟩ := List.mem_map.mp this
    exact ⟨b, hb, hbr.symm, by rw [← hbr]; rfl⟩

theorem twoDoc_scan_eval : scanEntries (M := DocMetadata) [1]
    (((mkVectorStoreConfig ⟨none, none, none⟩).minSimilarity : ℚ) : ℝ) none
    [⟨"old", [1], some ⟨some 0, none, none, []⟩⟩,
     ⟨"recent", [1], some ⟨some 86400000, none, none, []⟩⟩]
    = .ok [⟨"old", 1, some ⟨some 0, none, none, []⟩⟩,
           ⟨"recent", 1, some ⟨some 86400000, none, none, []⟩⟩] := by
  have hge : (((mkVectorStoreConfig ⟨none, none, none⟩).minSimilarity : ℚ) : ℝ) ≤ 1 := by
    norm_num [mkVectorStoreConfig]
  simp [scanEntries, filterSkips, cosineSimilarity_single_one, ge_iff_le, hge]

theorem twoDoc_base_eval : SemanticSearch.search (M := DocMetadata) (fun _ => [1])
    twoDocState.base "q" ⟨some 1, none, none, none⟩
    = .ok [⟨"old", 1, some ⟨some 0, none, none, []⟩, "o"⟩] := by
  unfold SemanticSearch.search VectorStore.search
  simp only [twoDocState, Option.getD_none, Option.getD_some, List.map_cons, List.map_nil]
  rw [twoDoc_scan_eval]
  have hsort : sortBySimilarityDesc (M := DocMetadata)
      [⟨"old", 1, some ⟨some 0, none, none, []⟩⟩,
       ⟨"recent", 1, some ⟨some 86400000, none, none, []⟩⟩]
      = [⟨"old", 1, some ⟨some 0, none, none, []⟩⟩,
         ⟨"recent", 1, some ⟨some 86400000, none, none, []⟩⟩] := by
    simp [sortBySimilarityDesc, List.mergeSort, List.merge, le_refl]
  simp only []
  rw [hsort]
  rfl

theorem twoDoc_enh_eval : Enhanced.search boostEnhancedConfig (fun _ => [1]) 86400000
    twoDocState "q" ⟨some 1, none, none, none⟩
    = .ok [boostResult 86400000 ⟨"old", 1, some ⟨some 0, none, none, []⟩, "o"⟩] := by
  have h1 : Enhanced.search boostEnhancedConfig (fun _ => [1]) 86400000
      twoDocState "q" ⟨some 1, none, none, none⟩
      = .ok ((sortTextResultsDesc
          ([⟨"old", 1, some ⟨some 0, none, none, []⟩, "o"⟩].map
            (boostResult 86400000))).take 1) := by
    unfold Enhanced.search
    rw [twoDoc_base_eval]
    rfl
  rw [h1]
  have hsort : sortTextResultsDesc
      ([(⟨"old", 1, some ⟨some 0, none, none, []⟩, "o"⟩ : TextSearchResult DocMetadata)].map
        (boostResult 86400000))
      = [boostResult 86400000 ⟨"old", 1, some ⟨some 0, none, none, []⟩, "o"⟩] := by
    simp [sortTextResultsDesc, List.mergeSort]
  rw [hsort]
  rfl

theorem boost_old_sim : (boostResult 86400000
    (⟨"old", 1, some ⟨some 0, none, none, []⟩, "o"⟩ : TextSearchResult DocMetadata)).similarity
    = 0.7 + 0.3 * (1 / (1 + Real.log 2)) := by
  show (1 : ℝ) * (0.7 + 0.3 * (1 / (1 + Real.log (1 +
      (((86400000 : ℚ) : ℝ) - (((0 : ℚ) : ℝ))) / (1000 * 60 * 60 * 24)))))
    = 0.7 + 0.3 * (1 / (1 + Real.log 2))
  rw [show (1 : ℝ) + (((86400000 : ℚ) : ℝ) - (((0 : ℚ) : ℝ))) / (1000 * 60 * 60 * 24)
    = 2 by norm_num]
  rw [one_mul]

theorem boost_recent_sim : (boostResult 86400000
    (⟨"recent", 1, some ⟨some 86400000, none, none, []⟩, "r"⟩ :
      TextSearchResult DocMetadata)).similarity = 1 := by
  show (1 : ℝ) * (0.7 + 0.3 * (1 / (1 + Real.log (1 +
      (((86400000 : ℚ) : ℝ) - (((86400000 : ℚ) : ℝ))) / (1000 * 60 * 60 * 24))))) = 1
  rw [show (1 : ℝ) + (((86400000 : ℚ) : ℝ) - (((86400000 : ℚ) : ℝ))) / (1000 * 60 * 60 * 24)
    = 1 by norm_num]
  rw [Real.log_one]
  norm_num

theorem boosted_old_lt_one : ¬ ((1 : ℝ) ≤ 0.7 + 0.3 * (1 / (1 + Real.log 2))) := by
  have hlog : 0 < Real.log 2 := Real.log_pos (by norm_num)
  have h1 : 1 / (1 + Real.log 2) < 1 := by
    rw [div_lt_one (by linarith)]
    linarith
  have h0 : 0 < 1 / (1 + Real.log 2) := by positivity
  nlinarith

theorem twoDoc_spec_eval : Enhanced.searchSpec (fun _ => [1]) 86400000
    twoDocState "q" ⟨some 1, none, none, none⟩
    = .ok [boostResult 86400000 ⟨"recent", 1, some ⟨some 86400000, none, none, []⟩, "r"⟩] := by
  have h1 : Enhanced.searchSpec (fun _ => [1]) 86400000
      twoDocState "q" ⟨some 1, none, none, none⟩
      = .ok ((sortTextResultsDesc
          ([(⟨"old", 1, some ⟨some 0, none, none, []⟩, "o"⟩ : TextSearchResult DocMetadata),
            ⟨"recent", 1, some ⟨some 86400000, none, none, []⟩, "r"⟩].map
            (boostResult 86400000))).take 1) := by
    unfold Enhanced.searchSpec
    simp only [twoDocState, Option.getD_none, Option.getD_some, List.map_cons, List.map_nil]
    rw [twoDoc_scan_eval]
    rfl
  rw [h1]
  have hpair : sortTextResultsDesc
      ([(⟨"old", 1, some ⟨some 0, none, none, []⟩, "o"⟩ : TextSearchResult DocMetadata),
        ⟨"recent", 1, some ⟨some 86400000, none, none, []⟩, "r"⟩].map
        (boostResult 86400000))
      = [boostResult 86400000 ⟨"recent", 1, some ⟨some 86400000, none, none, []⟩, "r"⟩,
         boostResult 86400000 ⟨"old", 1, some ⟨some 0, none, none, []⟩, "o"⟩] := by
    simp [sortTextResultsDesc, List.mergeSort, List.merge, boost_old_sim,
      boost_recent_sim, boosted_old_lt_one]
    intro h
    rw [← one_div] at h
    exact absurd h boosted_old_lt_one
  rw [hpair]
  rfl

/-- Claim C5 counterexample: `temporalBoost` on, two stored documents with
equal raw similarity, the older one first in insertion order, per-call
`limit: 1`.  The code truncates to the limit before boosting, so `old` is
the sole survivor even though `recent` has the strictly higher boosted
score; the claim's reading (truncation re-applied after boosting over all
threshold-passing results, so boosting can change which items survive)
would return `recent`. -/
theorem enhanced_search_truncates_before_boost_counterexample :
    (Enhanced.search boostEnhancedConfig (fun _ => [1]) 86400000 twoDocState "q"
        ⟨some 1, none, none, none⟩).map (List.map TextSearchResult.id) = .ok ["old"]
    ∧ (Enhanced.searchSpec (fun _ => [1]) 86400000 twoDocState "q"
        ⟨some 1, none, none, none⟩).map (List.map TextSearchResult.id) = .ok ["recent"]
    ∧ (boostResult 86400000
        (⟨"recent", 1, some ⟨some 86400000, none, none, []⟩, "r"⟩ :
          TextSearchResult DocMetadata)).similarity
      > (boostResult 86400000
        (⟨"old", 1, some ⟨some 0, none, none, []⟩, "o"⟩ :
          TextSearchResult DocMetadata)).similarity := by
  refine ⟨?_, ?_, ?_⟩
  · rw [twoDoc_enh_eval]
    rfl
  · rw [twoDoc_spec_eval]
    rfl
  · rw [boost_old_sim, boost_recent_sim]
    exact lt_of_not_le boosted_old_lt_one

theorem enhanced_search_boost_amended_witness :
    ((⟨some 1, none, none, none⟩ : SearchOptions DocMetadata).temporalBoost.getD
        boostEnhancedConfig.temporalBoost = true)
    ∧ SemanticSearch.search (fun _ => [1]) twoDocState.base "q" ⟨some 1, none, none, none⟩
        = .ok [⟨"old", 1, some ⟨some 0, none, none, []⟩, "o"⟩]
    ∧ Enhanced.search boostEnhancedConfig (fun _ => [1]) 86400000 twoDocState "q"
        ⟨some 1, none, none, none⟩
        = .ok [boostResult 86400000 ⟨"old", 1, some ⟨some 0, none, none, []⟩, "o"⟩]
    ∧ ([boostResult 86400000
        (⟨"old", 1, some ⟨some 0, none, none, []⟩, "o"⟩ : TextSearchResult DocMetadata)].Perm
        ([(⟨"old", 1, some ⟨some 0, none, none, []⟩, "o"⟩ : TextSearchResult DocMetadata)].map
          (boostResult 86400000))) :=
  ⟨rfl, twoDoc_base_eval, twoDoc_enh_eval,
    (enhanced_search_boost_amended boostEnhancedConfig (fun _ => [1]) 86400000 twoDocState
      "q" ⟨some 1, none, none, none⟩ _ _ rfl twoDoc_base_eval twoDoc_enh_eval).1⟩

/-! ### Claim C4: chunking -/

theorem sumTokens_append_single (l : List String) (s : String) :
    sumTokens (l ++ [s]) = sumTokens l + estimateTokens s := by
  simp [sumTokens]

theorem chunkLoop_eq_chunkBuild (maxT overT : ℚ) :
    ∀ (rest : List String) (chunks : List (List String)) (current : List String),
      chunkLoop maxT overT rest chunks current (sumTokens current)
        = chunks ++ chunkBuild maxT overT current rest := by
  intro rest
  induction rest with
  | nil =>
    intro chunks current
    unfold chunkLoop chunkBuild
    by_cases h : current.length > 0
    · rw [if_pos h, if_pos h]
    · rw [if_neg h, if_neg h, List.append_nil]
  | cons s rest ih =>
    intro chunks current
    unfold chunkLoop chunkBuild
    simp only []
    by_cases h : (sumTokens current + estimateTokens s : ℚ) > maxT ∧ current.length > 0
    · rw [if_pos h, if_pos h]
      have heq : sumTokens (lastSlice (overlapCount overT maxT current.length) current)
            + estimateTokens s
          = sumTokens (lastSlice (overlapCount overT maxT current.length) current ++ [s]) :=
        (sumTokens_append_single _ _).symm
      rw [heq, ih]
      simp
    · rw [if_neg h, if_neg h]
      have heq : sumTokens current + estimateTokens s = sumTokens (current ++ [s]) :=
        (sumTokens_append_single _ _).symm
      rw [heq, ih]

theorem chunkText_eq_chunkTextSpec (text : String) (maxT overT : ℚ) :
    chunkText text maxT overT = chunkTextSpec text maxT overT := by
  unfold chunkText chunkTextSpec
  have h : chunkLoop maxT overT (splitSentences text) [] [] 0
      = chunkBuild maxT overT [] (splitSentences text) := by
    have h2 := chunkLoop_eq_chunkBuild maxT overT (splitSentences text) [] []
    simpa [sumTokens] using h2
  simp only []
  rw [h]

/-- Claim C4: when `autoChunk` is on and the estimated token count
`ceil(len/4)` exceeds `maxChunkTokens`, `addDocument` takes the chunking
path; each chunk record `i` carries id `{parentId}#chunk{i}` (the parent id
itself when a single chunk results) and the metadata
`{chunkIndex: i, parentId}` merged over the parent's (stamped) metadata,
with the chunk text produced by the greedy sentence accumulator with
trailing overlap of `max(1, floor((overlapTokens / maxTokens) * count))`
sentences, exactly as the specification describes it
(`chunkText = chunkTextSpec`). -/
theorem addDocument_chunking_contract (cfg : EnhancedConfig)
    (embed : String → List ℝ) (now : ℚ) (s : EnhancedState)
    (doc : Document DocMetadata)
    (hchunk : cfg.autoChunk = true ∧ (estimateTokens doc.text : ℚ) > cfg.maxChunkTokens)
    (hexact : checkExactDuplicate cfg s doc.text = none)
    (hfuzzy : checkFuzzyDuplicate cfg embed s doc.text = .ok none) :
    Enhanced.addDocument cfg embed now s doc
      = .ok (addLongDocument cfg embed s
          ⟨doc.id, doc.text, some (stampTimestamp cfg now (spreadMeta doc.metadata))⟩, true)
    ∧ (chunkRecords cfg
        ⟨doc.id, doc.text, some (stampTimestamp cfg now (spreadMeta doc.metadata))⟩).length
      = (chunkText doc.text cfg.maxChunkTokens cfg.chunkOverlap).length
    ∧ (∀ i (h : i < (chunkRecords cfg
          ⟨doc.id, doc.text, some (stampTimestamp cfg now (spreadMeta doc.metadata))⟩).length),
        (chunkRecords cfg
          ⟨doc.id, doc.text, some (stampTimestamp cfg now (spreadMeta doc.metadata))⟩).get ⟨i, h⟩
        = ⟨(if (chunkText doc.text cfg.maxChunkTokens cfg.chunkOverlap).length = 1 then doc.id
            else doc.id ++ "#chunk" ++ toString i),
           (chunkText doc.text cfg.maxChunkTokens cfg.chunkOverlap).getD i "",
           some ⟨(stampTimestamp cfg now (spreadMeta doc.metadata)).timestamp, some i,
                 some doc.id, (stampTimestamp cfg now (spreadMeta doc.metadata)).extra⟩⟩)
    ∧ (∀ (t : String) (mT oT : ℚ), chunkText t mT oT = chunkTextSpec t mT oT) := by
  refine ⟨?_, ?_, ?_, fun t mT oT => chunkText_eq_chunkTextSpec t mT oT⟩
  · unfold Enhanced.addDocument
    rw [hexact, if_neg (show ¬ truthyHit none = true by decide), hfuzzy]
    simp only []
    rw [if_pos hchunk]
  · unfold chunkRecords
    simp
  · intro i h
    unfold chunkRecords
    unfold chunkRecords at h
    simp only [] at h ⊢
    rw [List.get_map]
    simp only [List.get_range]
    rfl

theorem addDocument_chunking_contract_witness :
    (chunkEnhancedConfig.autoChunk = true
      ∧ (estimateTokens "A. A. A. A." : ℚ) > chunkEnhancedConfig.maxChunkTokens)
    ∧ checkExactDuplicate chunkEnhancedConfig
        (EnhancedState.empty (mkVectorStoreConfig ⟨none, none, none⟩)) "A. A. A. A." = none
    ∧ checkFuzzyDuplicate chunkEnhancedConfig (fun _ => [1])
        (EnhancedState.empty (mkVectorStoreConfig ⟨none, none, none⟩)) "A. A. A. A."
      = .ok none
    ∧ Enhanced.addDocument chunkEnhancedConfig (fun _ => [1]) 0
        (EnhancedState.empty (mkVectorStoreConfig ⟨none, none, none⟩))
        ⟨"doc", "A. A. A. A.", none⟩
      = .ok (addLongDocument chunkEnhancedConfig (fun _ => [1])
          (EnhancedState.empty (mkVectorStoreConfig ⟨none, none, none⟩))
          ⟨"doc", "A. A. A. A.",
           some (stampTimestamp chunkEnhancedConfig 0 (spreadMeta none))⟩, true) := by
  have hchunk : chunkEnhancedConfig.autoChunk = true
      ∧ (estimateTokens "A. A. A. A." : ℚ) > chunkEnhancedConfig.maxChunkTokens :=
    ⟨rfl, by decide⟩
  exact ⟨hchunk, rfl, rfl,
    (addDocument_chunking_contract chunkEnhancedConfig (fun _ => [1]) 0
      (EnhancedState.empty (mkVectorStoreConfig ⟨none, none, none⟩))
      ⟨"doc", "A. A. A. A.", none⟩ hchunk rfl rfl).1⟩

/-! ### Claim C8: the normalized-text index -/

theorem mapGet_foldl_set (key : α → String) (val : α → β) :
    ∀ (records : List α) (m : List (String × β)) (k : String),
      mapGet (records.foldl (fun acc r => mapSet acc (key r) (val r)) m) k
        = match records.reverse.find? (fun r => key r == k) with
          | some r => some (val r)
          | none => mapGet m k := by
  intro records
  induction records with
  | nil => intro m k; rfl
  | cons r rest ih =>
    intro m k
    rw [List.foldl_cons, ih]
    rw [List.reverse_cons, List.find?_append]
    cases hf : rest.reverse.find? (fun x => key x == k) with
    | some x => rfl
    | none =>
      by_cases hr : key r = k
      · simp only [List.find?_cons, List.find?_nil]
        rw [show (key r == k) = true by simpa using hr]
        subst hr
        exact mapGet_set_self m (key r) (val r)
      · simp only [List.find?_cons, List.find?_nil]
        rw [show (key r == k) = false by simpa using hr]
        exact mapGet_set_other m (key r) k (val r) (Ne.symm hr)

theorem mapWF_foldl_set (key : α → String) (val : α → β) :
    ∀ (records : List α) (m : List (String × β)), mapWF m →
      mapWF (records.foldl (fun acc r => mapSet acc (key r) (val r)) m) := by
  intro records
  induction records with
  | nil => exact fun m h => h
  | cons r rest ih =>
    intro m h
    exact ih _ (mapWF_set m (key r) (val r) h)

theorem forall_foldl_set (key : α → String) (val : α → β) (P : String × β → Prop)
    (hP : ∀ r : α, P (key r, val r)) :
    ∀ (records : List α) (m : List (String × β)), (∀ p ∈ m, P p) →
      ∀ p ∈ records.foldl (fun acc r => mapSet acc (key r) (val r)) m, P p := by
  intro records
  induction records with
  | nil => exact fun m h => h
  | cons r rest ih =>
    intro m h
    exact ih _ (mapSet_forall P m (key r) (val r) h (hP r))

theorem insertFold_textHashes (embed : String → List ℝ)
    (records : List (Document DocMetadata)) :
    ∀ s : EnhancedState,
      (records.foldl (insertChunk embed) s).textHashes
        = records.foldl (fun h r => mapSet h (normalizeText r.text) r.id) s.textHashes := by
  induction records with
  | nil => intro s; rfl
  | cons r rest ih => intro s; exact ih _

theorem insertFold_documents (embed : String → List ℝ)
    (records : List (Document DocMetadata)) :
    ∀ s : EnhancedState,
      (records.foldl (insertChunk embed) s).base.documents
        = records.foldl (fun d r => mapSet d r.id r.text) s.base.documents := by
  induction records with
  | nil => intro s; rfl
  | cons r rest ih => intro s; exact ih _

theorem insertFold_vectors (embed : String → List ℝ)
    (records : List (Document DocMetadata)) :
    ∀ s : EnhancedState,
      (records.foldl (insertChunk embed) s).base.vectorStore.vectors
        = records.foldl
            (fun v r => mapSet v r.id ⟨r.id, embed r.text, r.metadata⟩)
            s.base.vectorStore.vectors := by
  induction records with
  | nil => intro s; rfl
  | cons r rest ih => intro s; exact ih _

theorem importFold_documents (data : List (StoredItem DocMetadata)) :
    ∀ s : SemanticSearchState DocMetadata,
      (SemanticSearch.importItems s data).documents
        = data.foldl (fun d item => mapSet d item.id item.text) s.documents := by
  unfold SemanticSearch.importItems
  induction data with
  | nil => intro s; rfl
  | cons item rest ih => intro s; exact ih _

theorem importFold_vectors (data : List (StoredItem DocMetadata)) :
    ∀ s : SemanticSearchState DocMetadata,
      (SemanticSearch.importItems s data).vectorStore.vectors
        = data.foldl
            (fun v item => mapSet v item.id ⟨item.id, item.vector, item.metadata⟩)
            s.vectorStore.vectors := by
  unfold SemanticSearch.importItems
  induction data with
  | nil => intro s; rfl
  | cons item rest ih => intro s; exact ih _

theorem invFromCharacterization
    (preDocs postDocs preH postH : List (String × String))
    (records : List (String × String))
    (hdocs : ∀ id, mapGet postDocs id
        = match records.reverse.find? (fun r => r.1 == id) with
          | some r => some r.2
          | none => mapGet preDocs id)
    (hhash : ∀ k, mapGet postH k
        = match records.reverse.find? (fun r => normalizeText r.2 == k) with
          | some r => some r.1
          | none => mapGet preH k)
    (hwfpost : mapWF postDocs)
    (hinv : ∀ id text, mapGet preDocs id = some text →
      mapGet preH (normalizeText text) = some id)
    (hsep : canonSeparated postDocs records) :
    ∀ id text, mapGet postDocs id = some text →
      mapGet postH (normalizeText text) = some id := by
  intro id text hdoc
  rw [hhash (normalizeText text)]
  cases hfind : records.reverse.find? (fun r => normalizeText r.2 == normalizeText text) with
  | some r =>
    have hrmem : r ∈ records := List.mem_reverse.mp (List.mem_of_find?_eq_some hfind)
    have hrcanon : normalizeText r.2 = normalizeText text := by
      simpa using List.find?_some hfind
    have hqmem : (id, text) ∈ postDocs := (mem_iff_mapGet postDocs hwfpost id text).mpr hdoc
    have := hsep r (id, text) (Or.inr hrmem) (Or.inl hqmem) hrcanon
    show some r.1 = some id
    rw [this]
  | none =>
    rw [hdocs id] at hdoc
    cases hfid : records.reverse.find? (fun r => r.1 == id) with
    | some r =>
      rw [hfid] at hdoc
      have hrt : r.2 = text := by simpa using hdoc
      have hrmem : r ∈ records.reverse := List.mem_of_find?_eq_some hfid
      have hcontra := List.find?_eq_none.mp hfind r hrmem
      simp [hrt] at hcontra
    | none =>
      rw [hfid] at hdoc
      exact hinv id text hdoc

theorem find_pair_map (toPair : α → String × String) (l : List α)
    (p : String × String → Bool) :
    (l.map toPair).reverse.find? p
      = (l.reverse.find? fun r => p (toPair r)).map toPair := by
  rw [← List.map_reverse, List.find?_map]
  rfl

theorem insertFold_preserves (embed : String → List ℝ)
    (records : List (Document DocMetadata)) (s : EnhancedState)
    (hwf : enhancedWF s) (hinv : textIndexInv s)
    (hsep : canonSeparated (records.foldl (insertChunk embed) s).base.documents
              (records.map fun r => (r.id, r.text))) :
    enhancedWF (records.foldl (insertChunk embed) s)
    ∧ textIndexInv (records.foldl (insertChunk embed) s) := by
  obtain ⟨hwd, hwv, hwh, hkey, hsync⟩ := hwf
  have hpd := insertFold_documents embed records s
  have hpv := insertFold_vectors embed records s
  have hph := insertFold_textHashes embed records s
  have hwfpostd : mapWF (records.foldl (insertChunk embed) s).base.documents := by
    rw [hpd]
    exact mapWF_foldl_set (fun r : Document DocMetadata => r.id) (fun r => r.text) records _ hwd
  refine ⟨⟨hwfpostd, ?_, ?_, ?_, ?_⟩, ?_⟩
  · rw [hpv]
    exact mapWF_foldl_set (fun r : Document DocMetadata => r.id)
      (fun r => (⟨r.id, embed r.text, r.metadata⟩ : VectorEntry DocMetadata)) records _ hwv
  · rw [hph]
    exact mapWF_foldl_set (fun r : Document DocMetadata => normalizeText r.text)
      (fun r => r.id) records _ hwh
  · rw [hpv]
    exact forall_foldl_set (fun r : Document DocMetadata => r.id)
      (fun r => (⟨r.id, embed r.text, r.metadata⟩ : VectorEntry DocMetadata))
      (fun p => p.1 = p.2.id) (fun r => rfl) records _ hkey
  · intro id
    rw [hpd, hpv, mapGet_foldl_set, mapGet_foldl_set]
    cases hf : records.reverse.find? (fun r => r.id == id) with
    | some r => simp
    | none => simpa using hsync id
  · intro id text hdoc
    refine invFromCharacterization s.base.documents
      (records.foldl (insertChunk embed) s).base.documents
      s.textHashes (records.foldl (insertChunk embed) s).textHashes
      (records.map fun r => (r.id, r.text)) ?_ ?_ hwfpostd hinv hsep id text hdoc
    · intro id2
      rw [hpd, mapGet_foldl_set, find_pair_map]
      cases hf : records.reverse.find? (fun r => r.id == id2) with
      | some r => simp [hf]
      | none => simp [hf]
    · intro k
      rw [hph, mapGet_foldl_set, find_pair_map]
      cases hf : records.reverse.find? (fun r => normalizeText r.text == k) with
      | some r => simp [hf]
      | none => simp [hf]

theorem loadFold_preserves (data : List (StoredItem DocMetadata)) (s : EnhancedState)
    (hwf : enhancedWF s) (hinv : textIndexInv s)
    (hsep : canonSeparated (Enhanced.load s data).base.documents
              (data.map fun i => (i.id, i.text))) :
    enhancedWF (Enhanced.load s data) ∧ textIndexInv (Enhanced.load s data) := by
  obtain ⟨hwd, hwv, hwh, hkey, hsync⟩ := hwf
  have hpd : (Enhanced.load s data).base.documents
      = data.foldl (fun d item => mapSet d item.id item.text) s.base.documents :=
    importFold_documents data s.base
  have hpv : (Enhanced.load s data).base.vectorStore.vectors
      = data.foldl
          (fun v item => mapSet v item.id ⟨item.id, item.vector, item.metadata⟩)
          s.base.vectorStore.vectors :=
    importFold_vectors data s.base
  have hph : (Enhanced.load s data).textHashes
      = data.foldl (fun h item => mapSet h (normalizeText item.text) item.id)
          s.textHashes := rfl
  have hwfpostd : mapWF (Enhanced.load s data).base.documents := by
    rw [hpd]
    exact mapWF_foldl_set (fun i : StoredItem DocMetadata => i.id) (fun i => i.text) data _ hwd
  refine ⟨⟨hwfpostd, ?_, ?_, ?_, ?_⟩, ?_⟩
  · rw [hpv]
    exact mapWF_foldl_set (fun i : StoredItem DocMetadata => i.id)
      (fun i => (⟨i.id, i.vector, i.metadata⟩ : VectorEntry DocMetadata)) data _ hwv
  · rw [hph]
    exact mapWF_foldl_set (fun i : StoredItem DocMetadata => normalizeText i.text)
      (fun i => i.id) data _ hwh
  · rw [hpv]
    exact forall_foldl_set (fun i : StoredItem DocMetadata => i.id)
      (fun i => (⟨i.id, i.vector, i.metadata⟩ : VectorEntry DocMetadata))
      (fun p => p.1 = p.2.id) (fun i => rfl) data _ hkey
  · intro id
    rw [hpd, hpv, mapGet_foldl_set, mapGet_foldl_set]
    cases hf : data.reverse.find? (fun i => i.id == id) with
    | some r => simp
    | none => simpa using hsync id
  · intro id text hdoc
    refine invFromCharacterization s.base.documents (Enhanced.load s data).base.documents
      s.textHashes (Enhanced.load s data).textHashes
      (data.map fun i => (i.id, i.text)) ?_ ?_ hwfpostd hinv hsep id text hdoc
    · intro id2
      rw [hpd, mapGet_foldl_set, find_pair_map]
      cases hf : data.reverse.find? (fun i => i.id == id2) with
      | some r => simp [hf]
      | none => simp [hf]
    · intro k
      rw [hph, mapGet_foldl_set, find_pair_map]
      cases hf : data.reverse.find? (fun i => normalizeText i.text == k) with
      | some r => simp [hf]
      | none => simp [hf]

theorem find?_congr_mem (l : List α) (p q : α → Bool) (h : ∀ x ∈ l, p x = q x) :
    l.find? p = l.find? q := by
  induction l with
  | nil => rfl
  | cons x rest ih =>
    rw [List.find?_cons, List.find?_cons, h x (List.mem_cons_self x rest),
      ih fun y hy => h y (List.mem_cons_of_mem x hy)]

theorem mapGet_some_keyed (l : List (String × VectorEntry DocMetadata))
    (hkey : ∀ p ∈ l, p.1 = p.2.id) (k : String) (v : VectorEntry DocMetadata)
    (h : mapGet l k = some v) : v.id = k := by
  unfold mapGet at h
  cases hf : l.find? fun p => p.1 == k with
  | none => rw [hf] at h; cases h
  | some q =>
    rw [hf] at h
    have hq1 : q.1 = k := by simpa using List.find?_some hf
    have hq2 : q.2 = v := by simpa using h
    rw [← hq2, ← hkey q (List.mem_of_find?_eq_some hf), hq1]

theorem exportItems_find (s : SemanticSearchState DocMetadata) (id : String)
    (hkey : ∀ p ∈ s.vectorStore.vectors, p.1 = p.2.id) :
    ((SemanticSearch.exportItems s).find? fun d => d.id == id)
      = (mapGet s.vectorStore.vectors id).map
          fun v => ⟨v.id, (mapGet s.documents v.id).getD "", v.vector, v.metadata⟩ := by
  unfold SemanticSearch.exportItems
  rw [List.map_map, List.find?_map]
  unfold mapGet
  rw [find?_congr_mem s.vectorStore.vectors _ _
    (fun x hx => by show (x.2.id == id) = (x.1 == id); rw [hkey x hx])]
  rw [Option.map_map]

theorem remove_preserves (s : EnhancedState) (id : String)
    (hwf : enhancedWF s) (hinv : textIndexInv s) :
    enhancedWF (Enhanced.remove s id).1 ∧ textIndexInv (Enhanced.remove s id).1 := by
  obtain ⟨hwd, hwv, hwh, hkey, hsync⟩ := hwf
  have hpd : (Enhanced.remove s id).1.base.documents = mapDelete s.base.documents id := rfl
  have hpv : (Enhanced.remove s id).1.base.vectorStore.vectors
      = mapDelete s.base.vectorStore.vectors id := rfl
  have hsync2 : ∀ x, (mapGet (mapDelete s.base.vectorStore.vectors id) x).isSome
      ↔ (mapGet (mapDelete s.base.documents id) x).isSome := by
    intro x
    by_cases hx : x = id
    · rw [hx, mapGet_delete_self, mapGet_delete_self]
      exact Iff.rfl
    · rw [mapGet_delete_other _ _ _ hx, mapGet_delete_other _ _ _ hx]
      exact hsync x
  cases hfind : (SemanticSearch.exportItems s.base).find? fun d => d.id == id with
  | none =>
    have hph : (Enhanced.remove s id).1.textHashes = s.textHashes := by
      unfold Enhanced.remove
      simp only []
      rw [hfind]
    refine ⟨⟨?_, ?_, ?_, ?_, ?_⟩, ?_⟩
    · rw [hpd]; exact mapWF_delete _ _ hwd
    · rw [hpv]; exact mapWF_delete _ _ hwv
    · rw [hph]; exact hwh
    · rw [hpv]; exact mapDelete_forall _ _ _ hkey
    · intro x; rw [hpd, hpv]; exact hsync2 x
    · intro id' text hdoc'
      rw [hpd] at hdoc'
      have hne : id' ≠ id := by
        intro h
        rw [h, mapGet_delete_self] at hdoc'
        cases hdoc'
      rw [mapGet_delete_other _ _ _ hne] at hdoc'
      rw [hph]
      exact hinv id' text hdoc'
  | some d =>
    have hph : (Enhanced.remove s id).1.textHashes
        = mapDelete s.textHashes (normalizeText d.text) := by
      unfold Enhanced.remove
      simp only []
      rw [hfind]
    rw [exportItems_find s.base id hkey] at hfind
    cases hv : mapGet s.base.vectorStore.vectors id with
    | none => rw [hv] at hfind; cases hfind
    | some v =>
      rw [hv] at hfind
      have hvid : v.id = id := mapGet_some_keyed _ hkey _ _ hv
      have hdocs_has : (mapGet s.base.documents id).isSome := by
        rw [← hsync id, hv]
        rfl
      obtain ⟨t0, ht0⟩ : ∃ t0, mapGet s.base.documents id = some t0 := by
        cases hx : mapGet s.base.documents id with
        | none => rw [hx] at hdocs_has; cases hdocs_has
        | some t => exact ⟨t, rfl⟩
      have hdtext : d.text = t0 := by
        have := Option.some.inj hfind
        rw [← this]
        show (mapGet s.base.documents v.id).getD "" = t0
        rw [hvid, ht0]
        rfl
      refine ⟨⟨?_, ?_, ?_, ?_, ?_⟩, ?_⟩
      · rw [hpd]; exact mapWF_delete _ _ hwd
      · rw [hpv]; exact mapWF_delete _ _ hwv
      · rw [hph]; exact mapWF_delete _ _ hwh
      · rw [hpv]; exact mapDelete_forall _ _ _ hkey
      · intro x; rw [hpd, hpv]; exact hsync2 x
      · intro id' text hdoc'
        rw [hpd] at hdoc'
        have hne : id' ≠ id := by
          intro h
          rw [h, mapGet_delete_self] at hdoc'
          cases hdoc'
        rw [mapGet_delete_other _ _ _ hne] at hdoc'
        have hh0 : mapGet s.textHashes (normalizeText text) = some id' :=
          hinv id' text hdoc'
        have hcanon_ne : normalizeText text ≠ normalizeText d.text := by
          intro hc
          have hh1 : mapGet s.textHashes (normalizeText t0) = some id := hinv id t0 ht0
          rw [hdtext] at hc
          rw [hc] at hh0
          rw [hh0] at hh1
          exact hne (Option.some.inj hh1.symm).symm
        rw [hph, mapGet_delete_other _ _ _ hcanon_ne]
        exact hh0

theorem applyOp_addDoc (cfg : EnhancedConfig) (embed : String → List ℝ)
    (now : ℚ) (s : EnhancedState) (doc : Document DocMetadata) :
    Enhanced.applyOp cfg embed now s (.addDoc doc)
      = (addRecords cfg embed now s doc).foldl (insertChunk embed) s := by
  have hred : Enhanced.applyOp cfg embed now s (.addDoc doc)
      = match Enhanced.addDocument cfg embed now s doc with
        | .ok (s1, _) => s1
        | .error _ => s := rfl
  rw [hred]
  unfold Enhanced.addDocument addRecords
  by_cases hex : truthyHit (checkExactDuplicate cfg s doc.text) = true
  · rw [if_pos hex, if_pos hex]
    rfl
  · rw [if_neg hex, if_neg hex]
    cases hfz : checkFuzzyDuplicate cfg embed s doc.text with
    | error e => rfl
    | ok o =>
      cases o with
      | some p => rfl
      | none =>
        simp only []
        by_cases hchunk : cfg.autoChunk ∧ (estimateTokens doc.text : ℚ) > cfg.maxChunkTokens
        · simp only [if_pos hchunk]
          rfl
        · simp only [if_neg hchunk]
          rfl

theorem insertedRecords_addDoc (cfg : EnhancedConfig) (embed : String → List ℝ)
    (now : ℚ) (s : EnhancedState) (doc : Document DocMetadata) :
    insertedRecords cfg embed now s (.addDoc doc)
      = (addRecords cfg embed now s doc).map fun r => (r.id, r.text) := by
  have hred : insertedRecords cfg embed now s (.addDoc doc)
      = if truthyHit (checkExactDuplicate cfg s doc.text) then []
        else
          match checkFuzzyDuplicate cfg embed s doc.text with
          | .error _ => []
          | .ok (some _) => []
          | .ok none =>
            let metadata := stampTimestamp cfg now (spreadMeta doc.metadata)
            let docm : Document DocMetadata := { doc with metadata := some metadata }
            if cfg.autoChunk ∧ (estimateTokens doc.text : ℚ) > cfg.maxChunkTokens then
              (chunkRecords cfg docm).map fun r => (r.id, r.text)
            else [(doc.id, doc.text)] := rfl
  rw [hred]
  unfold addRecords
  by_cases hex : truthyHit (checkExactDuplicate cfg s doc.text) = true
  · rw [if_pos hex, if_pos hex]
    rfl
  · rw [if_neg hex, if_neg hex]
    cases hfz : checkFuzzyDuplicate cfg embed s doc.text with
    | error e => rfl
    | ok o =>
      cases o with
      | some p => rfl
      | none =>
        simp only []
        by_cases hchunk : cfg.autoChunk ∧ (estimateTokens doc.text : ℚ) > cfg.maxChunkTokens
        · simp only [if_pos hchunk]
        · simp only [if_neg hchunk]
          rfl

theorem empty_wf (vcfg : VectorStoreConfig) :
    enhancedWF (EnhancedState.empty vcfg) ∧ textIndexInv (EnhancedState.empty vcfg) := by
  refine ⟨⟨mapWF_nil, mapWF_nil, mapWF_nil, ?_, ?_⟩, ?_⟩
  · intro p hp
    cases hp
  · intro id
    exact Iff.rfl
  · intro id text hdoc
    cases hdoc

theorem clear_preserves (s : EnhancedState) :
    enhancedWF (Enhanced.clear s) ∧ textIndexInv (Enhanced.clear s) := by
  refine ⟨⟨mapWF_nil, mapWF_nil, mapWF_nil, ?_, ?_⟩, ?_⟩
  · intro p hp
    cases hp
  · intro id
    exact Iff.rfl
  · intro id text hdoc
    cases hdoc

/-- Claim C8 (amended): the normalized-text index invariant — every stored
document's canonicalized text is a `textHashes` key mapping back to that
document's id — holds of a fresh instance and is preserved by every
mutating operation (`addDocument`, `remove`, `clear`, `load`), provided
the documents present after the operation together with the records the
operation inserts never assign one canonicalized text to two different
ids.  (Without that proviso the later insertion overwrites the index entry
of the earlier document with the same canonical text and the invariant
fails; see the counterexample.)  Structural well-formedness of the three
maps is preserved unconditionally. -/
theorem enhanced_textIndex_invariant_amended
    (cfg : EnhancedConfig) (embed : String → List ℝ) (now : ℚ)
    (s : EnhancedState) (op : EnhancedOp)
    (hwf : enhancedWF s) (hinv : textIndexInv s)
    (hsep : canonSeparated (Enhanced.applyOp cfg embed now s op).base.documents
              (insertedRecords cfg embed now s op)) :
    (∀ vcfg, enhancedWF (EnhancedState.empty vcfg) ∧ textIndexInv (EnhancedState.empty vcfg))
    ∧ enhancedWF (Enhanced.applyOp cfg embed now s op)
    ∧ textIndexInv (Enhanced.applyOp cfg embed now s op) := by
  refine ⟨empty_wf, ?_⟩
  cases op with
  | addDoc doc =>
    rw [applyOp_addDoc] at hsep ⊢
    rw [insertedRecords_addDoc] at hsep
    exact insertFold_preserves embed _ s hwf hinv hsep
  | removeDoc id =>
    exact remove_preserves s id hwf hinv
  | clearAll =>
    exact clear_preserves s
  | loadData data =>
    exact loadFold_preserves data s hwf hinv hsep

/-- Claim C8, counterexample to the unconditional invariant of the
specification: loading two stored items with the same text "X" but
different ids leaves document "a" stored with text "X" while the index
maps the canonicalized text to "b", so the invariant fails. -/
theorem enhanced_textIndex_counterexample :
    mapGet (Enhanced.load (EnhancedState.empty (mkVectorStoreConfig ⟨none, none, none⟩))
        [⟨"a", "X", [], none⟩, ⟨"b", "X", [], none⟩]).base.documents "a" = some "X"
    ∧ mapGet (Enhanced.load (EnhancedState.empty (mkVectorStoreConfig ⟨none, none, none⟩))
        [⟨"a", "X", [], none⟩, ⟨"b", "X", [], none⟩]).textHashes (normalizeText "X") = some "b"
    ∧ ¬ textIndexInv (Enhanced.load (EnhancedState.empty (mkVectorStoreConfig ⟨none, none, none⟩))
        [⟨"a", "X", [], none⟩, ⟨"b", "X", [], none⟩]) := by
  refine ⟨rfl, rfl, fun h => ?_⟩
  have h3 : (some "b" : Option String) = some "a" := h "a" "X" rfl
  exact absurd h3 (by decide)

/-- Witness for the amended claim C8 theorem at a concrete instance: the
fresh empty state with the default configuration, cleared. -/
theorem enhanced_textIndex_invariant_amended_witness :
    enhancedWF (Enhanced.applyOp defaultEnhancedConfig (fun t => [1]) 0
        (EnhancedState.empty (mkVectorStoreConfig ⟨none, none, none⟩)) .clearAll)
    ∧ textIndexInv (Enhanced.applyOp defaultEnhancedConfig (fun t => [1]) 0
        (EnhancedState.empty (mkVectorStoreConfig ⟨none, none, none⟩)) .clearAll) := by
  have hsep0 : canonSeparated
      (Enhanced.applyOp defaultEnhancedConfig (fun t => [1]) 0
        (EnhancedState.empty (mkVectorStoreConfig ⟨none, none, none⟩)) .clearAll).base.documents
      (insertedRecords defaultEnhancedConfig (fun t => [1]) 0
        (EnhancedState.empty (mkVectorStoreConfig ⟨none, none, none⟩)) .clearAll) := by
    intro p q hp hq hc
    have hp2 : p ∈ ([] : List (String × String)) ∨ p ∈ ([] : List (String × String)) := hp
    rcases hp2 with h2 | h2 <;> cases h2
  have h := enhanced_textIndex_invariant_amended defaultEnhancedConfig (fun t => [1]) 0
    (EnhancedState.empty (mkVectorStoreConfig ⟨none, none, none⟩)) .clearAll
    (empty_wf _).1 (empty_wf _).2 hsep0
  exact ⟨h.2.1, h.2.2⟩
